import Mathlib

/-!
Verification of the quantum-circuit IR and import layer
(QuantumComputation.cpp) against its natural-language specification.

The C++ code is shallowly embedded: std::map register tables and the
input/output permutations become association lists (std::map::insert,
which never overwrites, becomes insertNew; operator[] assignment becomes
setVal; map::erase becomes eraseKey), operations become an inductive Op
type, fatal paths (exit(1)/exit(3)) become Option.none, and the
decision-diagram backend is an abstract package whose calls are recorded
in an event trace.
-/

namespace QC

/-! ## Association-list primitives (embedding of std::map operations) -/

/-- Lookup of a key in an association list (std::map::find / at). -/
def alookup [DecidableEq α] : List (α × β) → α → Option β
  | [], _ => none
  | (k, v) :: r, a => if a = k then some v else alookup r a

/-- Insertion that keeps an existing binding (std::map::insert semantics:
the insert is a no-op when the key is already present). -/
def insertNew [DecidableEq α] (m : List (α × β)) (k : α) (v : β) : List (α × β) :=
  if (alookup m k).isSome then m else m ++ [(k, v)]

/-- Overwriting update (std::map::operator[] assignment, and in-place
mutation through map::at); appends when the key is absent. -/
def setVal [DecidableEq α] : List (α × β) → α → β → List (α × β)
  | [], k, v => [(k, v)]
  | (k', v') :: r, k, v =>
      if k = k' then (k, v) :: r else (k', v') :: setVal r k v

/-- Removal of a key (std::map::erase). -/
def eraseKey [DecidableEq α] (m : List (α × β)) (k : α) : List (α × β) :=
  m.filter (fun kv => decide (kv.1 ≠ k))

theorem alookup_append_right [DecidableEq α] (m : List (α × β)) (k : α) (v : β)
    (h : alookup m k = none) : alookup (m ++ [(k, v)]) k = some v := by
  induction m with
  | nil => simp [alookup]
  | cons hd tl ih =>
      simp only [alookup, List.cons_append] at *
      by_cases hk : k = hd.1
      · simp [hk] at h
      · simp [hk] at h ⊢
        exact ih h

theorem alookup_insertNew_self [DecidableEq α] (m : List (α × β)) (k : α) (v : β)
    (h : alookup m k = none) : alookup (insertNew m k v) k = some v := by
  unfold insertNew
  rw [h]
  simpa using alookup_append_right m k v h

theorem alookup_setVal_self [DecidableEq α] (m : List (α × β)) (k : α) (v : β) :
    alookup (setVal m k v) k = some v := by
  induction m with
  | nil => simp [setVal, alookup]
  | cons hd tl ih =>
      by_cases hk : k = hd.1
      · simp [setVal, hk, alookup]
      · simp [setVal, hk, alookup, ih]

theorem alookup_setVal_ne [DecidableEq α] (m : List (α × β)) (k k' : α) (v : β)
    (h : k' ≠ k) : alookup (setVal m k v) k' = alookup m k' := by
  induction m with
  | nil => simp [setVal, alookup, h]
  | cons hd tl ih =>
      by_cases hk : k = hd.1
      · subst hk
        simp [setVal, alookup, h]
      · simp only [setVal, if_neg hk, alookup]
        by_cases hk' : k' = hd.1
        · simp [hk']
        · simp [hk', ih]

theorem alookup_eq_none_iff [DecidableEq α] (m : List (α × β)) (k : α) :
    alookup m k = none ↔ ∀ kv ∈ m, kv.1 ≠ k := by
  induction m with
  | nil => simp [alookup]
  | cons hd tl ih =>
      by_cases hk : k = hd.1
      · simp [alookup, hk]
      · simp only [alookup, if_neg hk, List.mem_cons, ih]
        constructor
        · rintro h kv (rfl | hkv)
          · exact fun hc => hk hc.symm
          · exact h kv hkv
        · intro h kv hkv
          exact h kv (Or.inr hkv)

theorem alookup_isSome_of_mem [DecidableEq α] (m : List (α × β)) (kv : α × β)
    (h : kv ∈ m) : (alookup m kv.1).isSome := by
  cases hl : alookup m kv.1 with
  | none => exact absurd rfl ((alookup_eq_none_iff m kv.1).mp hl kv h)
  | some v => simp

theorem alookup_of_mem_nodup [DecidableEq α] (m : List (α × β)) (kv : α × β)
    (hmem : kv ∈ m) (hnd : (m.map Prod.fst).Nodup) : alookup m kv.1 = some kv.2 := by
  induction m with
  | nil => simp at hmem
  | cons hd tl ih =>
      simp only [List.map_cons, List.nodup_cons] at hnd
      rcases List.mem_cons.mp hmem with rfl | htl
      · simp [alookup]
      · have hne : kv.1 ≠ hd.1 := by
          intro hc
          exact hnd.1 (hc ▸ List.mem_map_of_mem Prod.fst htl)
        simp only [alookup, if_neg hne]
        exact ih htl hnd.2

/-- An entry of a key-nodup association list decomposes the list, and
setVal / eraseKey act on exactly that entry. -/
theorem decomp_of_mem_nodup [DecidableEq α] (m : List (α × β)) (k : α) (w : β)
    (hmem : (k, w) ∈ m) (hnd : (m.map Prod.fst).Nodup) :
    ∃ l1 l2, m = l1 ++ (k, w) :: l2 ∧
      (∀ kv ∈ l1, kv.1 ≠ k) ∧ (∀ kv ∈ l2, kv.1 ≠ k) ∧
      (∀ v : β, setVal m k v = l1 ++ (k, v) :: l2) ∧
      eraseKey m k = l1 ++ l2 := by
  induction m with
  | nil => simp at hmem
  | cons hd tl ih =>
      simp only [List.map_cons, List.nodup_cons] at hnd
      rcases List.mem_cons.mp hmem with rfl | htl
      · refine ⟨[], tl, by simp, by simp, ?_, ?_, ?_⟩
        · intro kv hkv hc
          have hmem' : kv.1 ∈ tl.map Prod.fst := List.mem_map_of_mem Prod.fst hkv
          rw [hc] at hmem'
          exact hnd.1 hmem'
        · intro v
          simp [setVal]
        · have htl' : ∀ kv ∈ tl, kv.1 ≠ (k, w).1 := by
            intro kv hkv hc
            have hmem' : kv.1 ∈ tl.map Prod.fst := List.mem_map_of_mem Prod.fst hkv
            rw [hc] at hmem'
            exact hnd.1 hmem'
          simp only [eraseKey, List.filter_cons]
          have : (decide ((k, w).1 ≠ (k, w).1)) = false := by simp
          rw [this]
          simp only [List.nil_append]
          exact List.filter_eq_self.mpr (fun kv hkv => by
            simpa using htl' kv hkv)
      · have hkhd : k ≠ hd.1 := by
          intro hc
          exact hnd.1 (hc ▸ List.mem_map_of_mem Prod.fst htl)
        obtain ⟨l1, l2, hsplit, h1, h2, hset, herase⟩ := ih htl hnd.2
        refine ⟨hd :: l1, l2, by rw [hsplit]; rfl, ?_, h2, ?_, ?_⟩
        · intro kv hkv
          rcases List.mem_cons.mp hkv with rfl | h
          · exact fun hc => hkhd hc.symm
          · exact h1 kv h
        · intro v
          cases hd with
          | mk hk hv =>
              simp only [setVal, if_neg hkhd, hset v, List.cons_append]
        · have hne : (decide (hd.1 ≠ k)) = true := by
            simpa using fun hc => hkhd hc.symm
          have herase' : tl.filter (fun kv => decide (kv.1 ≠ k)) = l1 ++ l2 := herase
          show List.filter (fun kv => decide (kv.1 ≠ k)) (hd :: tl) = (hd :: l1) ++ l2
          rw [List.filter_cons, hne, if_pos rfl, herase']
          rfl

/-! ## Data model: gates, operations, the circuit -/

/-- Gate kinds of the qc namespace (enum Gate / OpType in the headers,
as used by QuantumComputation.cpp and the Qiskit bridge). -/
inductive Gate
  | none_ | I | H | X | Y | Z | S | Sdag | T | Tdag | V | Vdag
  | U3 | U2 | U1 | RX | RY | RZ | SWAP | iSWAP | P | Pdag | Phase | SX | SXdag
deriving DecidableEq, Repr

/-- A control qubit: absolute index plus polarity (qc::Control; neg means
an anti-control gating on the 0 state). -/
structure Control where
  qubit : ℕ
  neg : Bool
deriving DecidableEq, Repr

/-- Parameters of a standard operation. The constructors keep the REAL
importer's pi-over-x rotations symbolic: params carries the three literal
angles (theta, phi, lambda) of the StandardOperation constructors with
C++ default value 0 for the ones not passed, while piDiv q stands for the
angle PI divided by q (qc::PI / x in the source). -/
inductive Angle
  | params (theta phi lambda : ℚ)
  | piDiv (q : ℚ)
deriving DecidableEq, Repr

/-- Kinds of non-unitary operations (NonUnitaryOperation constructors:
measure, barrier, snapshot with its integer argument, probabilities). -/
inductive NonUKind
  | measure | barrier | snapshot (n : ℕ) | probabilities
deriving DecidableEq, Repr

/-- An operation of the circuit's sequence: StandardOperation,
NonUnitaryOperation, or ClassicControlledOperation. Each records the
circuit width it was last told (its nqubits field). -/
inductive Op
  | std (nq : ℕ) (controls : List Control) (targets : List ℕ) (gate : Gate) (angle : Angle)
  | nonunitary (nq : ℕ) (qubits : List ℕ) (kind : NonUKind)
  | classicControlled (inner : Op) (controlBit : ℕ)
deriving DecidableEq, Repr

/-- Operation::setNqubits — resize the operation to a new total qubit
count (propagated recursively into a classically controlled wrapper). -/
def Op.setNqubits : Op → ℕ → Op
  | .std _ c t g a, n => .std n c t g a
  | .nonunitary _ q k, n => .nonunitary n q k
  | .classicControlled inner b, n => .classicControlled (inner.setNqubits n) b

/-- Modelled from the spec: the operation capability actsOn reports which
qubit indices the operation acts on (Operation::actsOn lives in the
header, which is not part of the excerpt); an operation acts on its
control qubits and its targets. This lists those indices. -/
def Op.opQubits : Op → List ℕ
  | .std _ c t _ _ => c.map Control.qubit ++ t
  | .nonunitary _ q _ => q
  | .classicControlled inner _ => inner.opQubits

/-- Operation::actsOn as a Boolean test (see Op.opQubits). -/
def Op.actsOn (op : Op) (i : ℕ) : Bool :=
  decide (i ∈ op.opQubits)

/-- Operation::isUnitary: standard operations are unitary, non-unitary
markers and classically controlled wrappers are not. -/
def Op.isUnitary : Op → Bool
  | .std _ _ _ _ _ => true
  | .nonunitary _ _ _ => false
  | .classicControlled _ _ => false

/-- Number of control qubits of an operation. -/
def Op.controlCount : Op → ℕ
  | .std _ c _ _ _ => c.length
  | .nonunitary _ _ _ => 0
  | .classicControlled inner _ => inner.controlCount

/-- Register table: name to (start index, size) — registerMap. -/
abbrev RegMap := List (String × (ℕ × ℕ))

/-- A wire permutation: map from logical qubit index to physical wire. -/
abbrev Permutation := List (ℕ × ℕ)

/-- The circuit aggregate (class QuantumComputation): widths, register
tables, boundary permutations, operation sequence, and the running
maximum control count. -/
structure QuantumComputation where
  nqubits : ℕ := 0
  nclassics : ℕ := 0
  qregs : RegMap := []
  cregs : RegMap := []
  inputPermutation : Permutation := []
  outputPermutation : Permutation := []
  ops : List Op := []
  max_controls : ℕ := 0
deriving DecidableEq, Repr

/-- The freshly constructed, empty circuit. -/
def emptyQC : QuantumComputation := {}

/-- Modelled from the spec: updateMaxControls (declared in the header,
not in the excerpt) keeps max_controls at the largest control-qubit
count observed so far, so it takes the maximum with its argument. -/
def updateMaxControls (c : QuantumComputation) (n : ℕ) : QuantumComputation :=
  { c with max_controls := max c.max_controls n }

/-! ## REAL-format importer -/

/-- Modelled from the spec: the identifierMap from gate identifier
strings to gate kinds lives in the header, which is not in the excerpt.
The spec describes the identifier grammar (rx/ry/rz, q, or a single
lowercase letter possibly with a + or i suffix; the V family, the P
family and c force control counts; RZ and U1 share the snapping rule),
from which this table is reconstructed. The claims' theorems hypothesise
the looked-up gate kind, so only the shape of the table matters. -/
def identifierMap : List (String × Gate) :=
  [("0", .I), ("h", .H), ("n", .X), ("c", .X), ("x", .X), ("y", .Y), ("z", .Z),
   ("s", .S), ("si", .Sdag), ("s+", .Sdag), ("v", .V), ("vi", .Vdag), ("v+", .Vdag),
   ("rx", .RX), ("ry", .RY), ("rz", .RZ), ("q", .U1), ("f", .SWAP),
   ("p", .P), ("pi", .Pdag), ("p+", .Pdag)]

/-- Modelled from the spec: dd::ComplexNumbers::TOLERANCE, the small
numerical tolerance of the decision-diagram backend, is defined outside
the excerpt; the spec only calls it a small numerical tolerance. The
proofs rely solely on it being positive and at most one half. -/
def TOLERANCE : ℚ := 1 / 10 ^ 13

/-- Header commands of the REAL format, as classified by
readRealHeader. Comment lines and the final .BEGIN are left implicit
(the list ends at .BEGIN); an unrecognized command is fatal and hence
not representable. The commands whose line is discarded (.CONSTANTS,
.INPUTS, .OUTPUTS, .GARBAGE, .VERSION, .INPUTBUS, .OUTPUTBUS) and the
skipped .DEFINE block are collapsed into one constructor each. -/
inductive RealHeaderCmd
  | numvars (n : ℕ)
  | variables (names : List String)
  | discarded
  | defineBlock
deriving DecidableEq, Repr

/-- QuantumComputation::readRealHeader — processes header commands in
order. .NUMVARS sets both widths; .VARIABLES reads nqubits identifiers,
creating one-qubit registers, c_-prefixed one-bit classical registers
and identity permutation entries for each index. -/
def readRealHeader (c : QuantumComputation) : List RealHeaderCmd → QuantumComputation
  | [] => c
  | .numvars n :: rest =>
      readRealHeader { c with nqubits := n, nclassics := n } rest
  | .variables names :: rest =>
      let idx := List.range c.nqubits
      readRealHeader
        { c with
          qregs := idx.foldl (fun m i => insertNew m (names.getD i "") (i, 1)) c.qregs
          cregs := idx.foldl (fun m i => insertNew m ("c_" ++ names.getD i "") (i, 1)) c.cregs
          inputPermutation := idx.foldl (fun p i => insertNew p i i) c.inputPermutation
          outputPermutation := idx.foldl (fun p i => insertNew p i i) c.outputPermutation }
        rest
  | .discarded :: rest => readRealHeader c rest
  | .defineBlock :: rest => readRealHeader c rest

/-- One body line of the REAL format after the gate regex has split it:
the identifier (capture 1), the optional digit run (capture 2), the
optional colon literal (capture 3), and the remaining whitespace tokens
of the line (control labels then the target label). -/
structure RealGateLine where
  ident : String
  num : Option ℕ
  param : Option ℚ
  labels : List String
deriving DecidableEq, Repr

/-- The leading-minus test and strip applied to a control label
(label.at(0) == the minus sign, then erasing it): returns the
negative-control flag and the bare register name. -/
def stripNeg (s : String) : Bool × String :=
  match s.data with
  | '-' :: rest => (true, String.mk rest)
  | _ => (false, s)

/-- Control-label resolution of readRealGateDescriptions: a leading
minus marks a negative control, the rest is resolved through the qubit
register table; an unresolved label is fatal. -/
def parseControls (c : QuantumComputation) : List String → Option (List Control)
  | [] => some []
  | l :: r =>
      match alookup c.qregs (stripNeg l).2 with
      | none => none
      | some (s, _) =>
          (parseControls c r).map (fun cs => ⟨s, (stripNeg l).1⟩ :: cs)

/-- The construction switch of readRealGateDescriptions (lines 155-206):
emits the operation for one parsed gate line. The RZ/U1 branch tests the
literal against the nearest integer within TOLERANCE and snaps to
Z / S / Sdag / T / Tdag for the integers 1, -1, 2, -2, 4, -4, else emits
a rotation of PI over the integer; outside tolerance it emits a rotation
of PI over the literal. SWAP/P/Pdag reinterpret the last control as a
second target. The sentinel gate kind is fatal. -/
def realEmit (nq : ℕ) (controls : List Control) (target : ℕ)
    (gate : Gate) (lambda : ℚ) : Option Op :=
  match gate with
  | .none_ => none
  | .I | .H | .Y | .Z | .S | .Sdag | .T | .Tdag | .V | .Vdag | .U3 | .U2 =>
      some (.std nq controls [target] gate (.params 0 0 lambda))
  | .X => some (.std nq controls [target] .X (.params 0 0 0))
  | .RX | .RY => some (.std nq controls [target] gate (.piDiv lambda))
  | .RZ | .U1 =>
      let x : ℤ := round lambda
      if |lambda - (x : ℚ)| < TOLERANCE then
        if x = 1 ∨ x = -1 then some (.std nq controls [target] .Z (.params 0 0 0))
        else if x = 2 then some (.std nq controls [target] .S (.params 0 0 0))
        else if x = -2 then some (.std nq controls [target] .Sdag (.params 0 0 0))
        else if x = 4 then some (.std nq controls [target] .T (.params 0 0 0))
        else if x = -4 then some (.std nq controls [target] .Tdag (.params 0 0 0))
        else some (.std nq controls [target] gate (.piDiv (x : ℚ)))
      else some (.std nq controls [target] gate (.piDiv lambda))
  | .SWAP | .P | .Pdag =>
      match controls.getLast? with
      | none => none
      | some ctl =>
          some (.std nq controls.dropLast [target, ctl.qubit] gate (.params 0 0 0))
  | _ => none

/-- The requested control count of a REAL gate line as an integer
(stoi(digits) - 1, possibly -1 for an explicit digit run of 0), with
the family-specific overrides: the V family and the c identifier force
one control, the P family forces two. -/
def ncOfLine (l : RealGateLine) (gate : Gate) : ℤ :=
  if gate = .V ∨ gate = .Vdag ∨ l.ident = "c" then 1
  else if gate = .P ∨ gate = .Pdag then 2
  else match l.num with
    | none => 0
    | some d => (d : ℤ) - 1

/-- The label-resolution and emission tail of one REAL gate line, for a
clamped control count k: resolve k control labels and one target label
(too few tokens or an unresolved label is fatal), record the control
count through updateMaxControls, run the construction switch, and
append the operation. -/
def realLineFinish (c : QuantumComputation) (gate : Gate) (lam : ℚ)
    (labels : List String) (k : ℕ) : Option QuantumComputation :=
  if labels.length < k + 1 then none
  else
    match parseControls c (labels.take k) with
    | none => none
    | some controls =>
        match alookup c.qregs (labels.getD k "") with
        | none => none
        | some (s, _) =>
            match realEmit (updateMaxControls c k).nqubits controls s gate lam with
            | none => none
            | some op =>
                some { updateMaxControls c k with
                  ops := (updateMaxControls c k).ops ++ [op] }

/-- QuantumComputation::readRealGateDescriptions, one line: identifier
lookup (with t hard-wired to X), the control-count computation, the
fatal control-count bound, then the resolution/emission tail. The C++
control count is an int, so the bound check compares integers and the
label loop runs toNat of it. -/
def processRealLine (c : QuantumComputation) (l : RealGateLine) : Option QuantumComputation :=
  match (if l.ident = "t" then some Gate.X else alookup identifierMap l.ident) with
  | none => none
  | some gate =>
      if (c.nqubits : ℤ) ≤ ncOfLine l gate then none
      else realLineFinish c gate (l.param.getD 0) l.labels (ncOfLine l gate).toNat

/-- The body loop of readRealGateDescriptions over all lines up to
.END. -/
def processRealLines (c : QuantumComputation) : List RealGateLine → Option QuantumComputation
  | [] => some c
  | l :: rest =>
      match processRealLine c l with
      | none => none
      | some c' => processRealLines c' rest

/-- QuantumComputation::importReal — header then body. -/
def importReal (c : QuantumComputation) (header : List RealHeaderCmd)
    (body : List RealGateLine) : Option QuantumComputation :=
  processRealLines (readRealHeader c header) body

/-! ## OpenQASM-family importer -/

/-- The identity-permutation seeding loop shared by importOpenQASM and
importGRCS: for i in 0..n-1 insert the entry (i, i). -/
def idInsert (p : Permutation) (n : ℕ) : Permutation :=
  (List.range n).foldl (fun q i => insertNew q i i) p

/-- The identity permutation over the indices 0..n-1. -/
def identityPerm (n : ℕ) : Permutation :=
  (List.range n).map (fun i => (i, i))

/-- Top-level OpenQASM statements as dispatched by importOpenQASM. The
collaborator-built operations (Qop) arrive as ready operations; gate,
opaque and include statements do not touch the circuit; an unexpected
statement is fatal and hence not representable. -/
inductive QasmStmt
  | qreg (name : String) (n : ℕ)
  | creg (name : String) (n : ℕ)
  | qop (op : Op)
  | gateDecl
  | includeFile
  | barrier (args : List ℕ)
  | opaqueDecl
  | ifStmt (cregName : String) (n : ℕ) (op : Op)
  | snapshot (n : ℕ) (args : List ℕ)
  | probabilities
deriving DecidableEq, Repr

/-- One iteration of the importOpenQASM statement loop. A qreg
declaration grows the width and immediately resizes every appended
operation; an if statement naming an undeclared classical register is a
reported, non-fatal error that drops the statement. -/
def applyQasmStmt (c : QuantumComputation) : QasmStmt → QuantumComputation
  | .qreg s n =>
      let nq := c.nqubits + n
      { c with
        qregs := setVal c.qregs s (c.nqubits, n)
        nqubits := nq
        ops := c.ops.map (fun op => op.setNqubits nq) }
  | .creg s n =>
      { c with
        cregs := setVal c.cregs s (c.nclassics, n)
        nclassics := c.nclassics + n }
  | .qop op => { c with ops := c.ops ++ [op] }
  | .gateDecl => c
  | .includeFile => c
  | .barrier args =>
      { c with ops := c.ops ++ [.nonunitary c.nqubits args .barrier] }
  | .opaqueDecl => c
  | .ifStmt s n op =>
      match alookup c.cregs s with
      | none => c
      | some (start, _) =>
          { c with ops := c.ops ++ [.classicControlled op (start + n)] }
  | .snapshot n args =>
      { c with ops := c.ops ++ [.nonunitary c.nqubits args (.snapshot n)] }
  | .probabilities =>
      { c with ops := c.ops ++ [.nonunitary c.nqubits [] .probabilities] }

/-- QuantumComputation::importOpenQASM — the statement loop followed by
the identity (re)initialization of both permutations over the final
qubit count. The statement loop is a do-while: it runs at least once,
and a stream with no statements makes the mandatory first iteration see
the end-of-input token, which matches none of the dispatch cases and
hits the fatal unexpected-statement branch; an empty statement list is
therefore a failed import, not an empty one. -/
def importOpenQASM (c : QuantumComputation) (stmts : List QasmStmt) :
    Option QuantumComputation :=
  match stmts with
  | [] => none
  | _ :: _ =>
      let c' := stmts.foldl applyQasmStmt c
      some { c' with
        inputPermutation := idInsert c'.inputPermutation c'.nqubits
        outputPermutation := idInsert c'.outputPermutation c'.nqubits }

/-- The import(filename, OpenQASM) dispatch path: updateMaxControls(2)
followed by importOpenQASM (QuantumComputation.cpp lines 414-416). -/
def importOpenQASMFile (c : QuantumComputation) (stmts : List QasmStmt) :
    Option QuantumComputation :=
  importOpenQASM (updateMaxControls c 2) stmts

/-! ## Grid-benchmark (GRCS) importer -/

/-- One non-empty line of a grid-benchmark file: cycle number, gate
identifier, argument indices. -/
structure GrcsLine where
  cycle : ℕ
  gate : String
  args : List ℕ
deriving DecidableEq, Repr

/-- One line of the importGRCS loop: cz takes control and target, the
single-qubit gates h, t, x_1_2, y_1_2 take one target, anything else is
fatal. -/
def applyGrcsLine (c : QuantumComputation) (l : GrcsLine) : Option QuantumComputation :=
  if l.gate = "cz" then
    let control := l.args.getD 0 0
    let target := l.args.getD 1 0
    some { c with ops := c.ops ++ [.std c.nqubits [⟨control, false⟩] [target] .Z (.params 0 0 0)] }
  else
    let target := l.args.getD 0 0
    if l.gate = "h" then
      some { c with ops := c.ops ++ [.std c.nqubits [] [target] .H (.params 0 0 0)] }
    else if l.gate = "t" then
      some { c with ops := c.ops ++ [.std c.nqubits [] [target] .T (.params 0 0 0)] }
    else if l.gate = "x_1_2" then
      some { c with ops := c.ops ++ [.std c.nqubits [] [target] .RX (.piDiv 2)] }
    else if l.gate = "y_1_2" then
      some { c with ops := c.ops ++ [.std c.nqubits [] [target] .RY (.piDiv 2)] }
    else none

/-- The line loop of importGRCS. -/
def processGrcsLines (c : QuantumComputation) : List GrcsLine → Option QuantumComputation
  | [] => some c
  | l :: rest =>
      match applyGrcsLine c l with
      | none => none
      | some c' => processGrcsLines c' rest

/-- QuantumComputation::importGRCS — reads the qubit count, processes
the lines, then seeds both permutations with the identity. -/
def importGRCS (c : QuantumComputation) (n : ℕ) (lines : List GrcsLine) :
    Option QuantumComputation :=
  match processGrcsLines { c with nqubits := n } lines with
  | none => none
  | some c' =>
      some { c' with
        inputPermutation := idInsert c'.inputPermutation c'.nqubits
        outputPermutation := idInsert c'.outputPermutation c'.nqubits }

/-! ## Register and permutation manager -/

/-- Modelled from the spec: dd::MAXN, the fixed hard maximum supported
width, is defined by the decision-diagram backend outside the excerpt;
the spec only calls it a fixed hard maximum. Its concrete value is
immaterial to the proofs (the cap counterexample works for any finite
positive value); 128 is used. -/
def dd_MAXN : ℕ := 128

/-- The common tail of addQubitRegister: identity permutation entries
for the new indices, the width increase, and the resize of every
existing operation. -/
def finishAddQubits (c : QuantumComputation) (nq : ℕ) : QuantumComputation :=
  let ext := fun p => (List.range nq).foldl
    (fun q i => insertNew q (c.nqubits + i) (c.nqubits + i)) p
  let nq' := c.nqubits + nq
  { c with
    inputPermutation := ext c.inputPermutation
    outputPermutation := ext c.outputPermutation
    nqubits := nq'
    ops := c.ops.map (fun op => op.setNqubits nq') }

/-- QuantumComputation::addQubitRegister — rejects when the new total
exceeds dd::MAXN; an existing name is extended in place only when its
range ends at the current qubit count, otherwise fatal; a fresh name
becomes a new register at the current width. -/
def addQubitRegister (c : QuantumComputation) (nq : ℕ) (name : String) :
    Option QuantumComputation :=
  if dd_MAXN < c.nqubits + nq then none
  else
    match alookup c.qregs name with
    | some (s, sz) =>
        if s + sz = c.nqubits then
          some (finishAddQubits { c with qregs := setVal c.qregs name (s, sz + nq) } nq)
        else none
    | none =>
        some (finishAddQubits { c with qregs := c.qregs ++ [(name, (c.nqubits, nq))] } nq)

/-- QuantumComputation::addClassicalRegister — an existing name is
fatal (no in-place growth); otherwise the register is appended at the
current classical width. -/
def addClassicalRegister (c : QuantumComputation) (nc : ℕ) (name : String) :
    Option QuantumComputation :=
  if (alookup c.cregs name).isSome then none
  else
    some { c with
      cregs := insertNew c.cregs name (c.nclassics, nc)
      nclassics := c.nclassics + nc }

/-- QuantumComputation::isIdleQubit — no operation acts on the index. -/
def isIdleQubit (c : QuantumComputation) (i : ℕ) : Bool :=
  !(c.ops.any (fun op => op.actsOn i))

/-- QuantumComputation::getQubitRegister — the first register whose
range contains the index; an index outside every range is fatal. -/
def getQubitRegister (c : QuantumComputation) (i : ℕ) : Option String :=
  (c.qregs.find? (fun r => decide (r.2.1 ≤ i ∧ i < r.2.1 + r.2.2))).map Prod.fst

/-- The register update inside stripTrailingIdleQubits: the owning
register shrinks by one, disappearing entirely at size one. -/
def shrinkReg (regs : RegMap) (name : String) : RegMap :=
  match alookup regs name with
  | none => regs
  | some (s, sz) =>
      if sz = 1 then eraseKey regs name else setVal regs name (s, sz - 1)

/-- The downward scan of stripTrailingIdleQubits. The C++ loop variable
always equals nqubits - 1 when an idle qubit is stripped (both are
decremented together), so the remaining iteration count serves as fuel:
stripAux c (i+1) examines index i. Stopping at a busy index resizes
every operation once; running out of indices (all qubits idle) ends the
loop without a resize, as in the source. -/
def stripAux : QuantumComputation → ℕ → Option QuantumComputation
  | c, 0 => some c
  | c, i + 1 =>
      if isIdleQubit c i then
        match getQubitRegister c i with
        | none => none
        | some name =>
            stripAux
              { c with
                inputPermutation := eraseKey c.inputPermutation i
                outputPermutation := eraseKey c.outputPermutation i
                nqubits := c.nqubits - 1
                qregs := shrinkReg c.qregs name }
              i
      else
        some { c with ops := c.ops.map (fun op => op.setNqubits c.nqubits) }

/-- QuantumComputation::stripTrailingIdleQubits. -/
def stripTrailingIdleQubits (c : QuantumComputation) : Option QuantumComputation :=
  stripAux c c.nqubits

/-! ## Functionality / simulation builder

The decision-diagram backend is external; it is modelled as an abstract
package of pure edge-producing functions (edges are opaque naturals)
together with an event trace recording every reference-count operation,
multiplication, garbage collection and normalization-mode switch the
builder performs, in order. -/

/-- One backend call recorded by the builder. -/
inductive DDEvent
  | incRef (e : ℕ)
  | decRef (e : ℕ)
  | multiplyEv (a b : ℕ)
  | gcEv
  | setNorm (b : Bool)
deriving DecidableEq, Repr

/-- The abstract decision-diagram backend: identity construction,
multiplication, the distinguished terminal edge, and the per-operation
fragment construction (Operation::getDD, which receives the current
width implicitly through the operation, the scratch line buffer, the
output permutation and the executeSwaps flag). -/
structure DDPackage where
  makeIdent : ℕ → ℕ → ℕ
  DDone : ℕ
  mult : ℕ → ℕ → ℕ
  getDD : Op → Permutation → Bool → ℕ

/-- The shared fold of buildFunctionality and simulate: for each
operation require unitarity (fatal otherwise), build its fragment,
multiply it onto the accumulator, retain the product, release the old
accumulator, collect garbage. Returns the final accumulator and the
event trace of the loop. -/
def ddFold (pkg : DDPackage) (perm : Permutation) (es : Bool) :
    List Op → ℕ → Option (ℕ × List DDEvent)
  | [], e => some (e, [])
  | op :: rest, e =>
      if op.isUnitary then
        let frag := pkg.getDD op perm es
        let tmp := pkg.mult frag e
        match ddFold pkg perm es rest tmp with
        | none => none
        | some (r, tr) =>
            some (r, [.multiplyEv frag e, .incRef tmp, .decRef e, .gcEv] ++ tr)
      else none

/-- The successive accumulator edges of the fold, initial one first. -/
def ddAccums (pkg : DDPackage) (perm : Permutation) (es : Bool) :
    List Op → ℕ → List ℕ
  | [], e => [e]
  | op :: rest, e => e :: ddAccums pkg perm es rest (pkg.mult (pkg.getDD op perm es) e)

/-- QuantumComputation::buildFunctionality — zero qubits short-circuits
to the terminal edge; otherwise matrix normalization is enabled, an
identity accumulator over all qubits is retained, the fold runs, and
normalization is restored before returning. -/
def buildFunctionality (pkg : DDPackage) (c : QuantumComputation) (es : Bool) :
    Option (ℕ × List DDEvent) :=
  if c.nqubits = 0 then some (pkg.DDone, [])
  else
    let e0 := pkg.makeIdent 0 (c.nqubits - 1)
    match ddFold pkg c.outputPermutation es c.ops e0 with
    | none => none
    | some (r, tr) =>
        some (r, [DDEvent.setNorm true, DDEvent.incRef e0] ++ tr ++ [DDEvent.setNorm false])

/-- QuantumComputation::simulate — the same fold started from the
caller-supplied input state edge, which is retained on entry; the
normalization mode is never touched. -/
def simulate (pkg : DDPackage) (c : QuantumComputation) (inE : ℕ) (es : Bool) :
    Option (ℕ × List DDEvent) :=
  match ddFold pkg c.outputPermutation es c.ops inE with
  | none => none
  | some (r, tr) => some (r, DDEvent.incRef inE :: tr)

/-- The edges retained (incRef) by a trace, in order. -/
def incList (tr : List DDEvent) : List ℕ :=
  tr.filterMap (fun ev => match ev with | .incRef e => some e | _ => none)

/-- The edges released (decRef) by a trace, in order. -/
def decList (tr : List DDEvent) : List ℕ :=
  tr.filterMap (fun ev => match ev with | .decRef e => some e | _ => none)

/-- The number of garbage-collection calls in a trace. -/
def gcCount (tr : List DDEvent) : ℕ :=
  tr.countP (fun ev => ev matches .gcEv)

/-! ## Foreign-circuit import bridge (Qiskit)

A foreign instruction carries its name, qubit and classical-bit
arguments, parameters, and — for composite instructions — an optional
definition sub-circuit. Qubit references are modelled as absolute
indices (the register-name/offset resolution getIndexFromQubitRegister
/ getIndexFromClassicalRegister lives in the header, outside the
excerpt); inside a definition, an argument index j refers positionally
to the j-th qubit of the defining circuit, exactly as the qargMap /
cargMap dictionaries associate definition qubits with caller arguments.
A missing definition stands for the Python attribute access raising
(the caught py::error_already_set), which is reported, not fatal. -/
inductive PyInst
  | mk (name : String) (qargs : List ℕ) (cargs : List ℕ)
       (params : List ℚ) (definition : Option (List PyInst))

/-- Name of a foreign instruction. -/
def PyInst.nameOf : PyInst → String
  | .mk n _ _ _ _ => n

/-- Qubit arguments of a foreign instruction. -/
def PyInst.qargsOf : PyInst → List ℕ
  | .mk _ q _ _ _ => q

/-- Classical-bit arguments of a foreign instruction. -/
def PyInst.cargsOf : PyInst → List ℕ
  | .mk _ _ c _ _ => c

/-- Parameters of a foreign instruction. -/
def PyInst.paramsOf : PyInst → List ℚ
  | .mk _ _ _ p _ => p

/-- The circuit together with the count of reported (non-fatal) import
failures of the bridge. -/
structure BridgeState where
  qc : QuantumComputation
  failures : ℕ
deriving Repr

/-- The fixed table of natively supported gate names of
emplaceQiskitOperation. -/
def nativelySupportedGates : List String :=
  ["i", "id", "iden", "x", "y", "z", "h", "s", "sdg", "t", "tdg", "p", "u1",
   "rx", "ry", "rz", "u2", "u", "u3", "cx", "cy", "cz", "cp", "cu1", "ch",
   "crx", "cry", "crz", "cu3", "ccx", "swap", "cswap", "iswap", "sx", "sxdg",
   "csx", "mcx_gray", "mcx_recursive", "mcx_vchain", "mcphase", "mcrx",
   "mcry", "mcrz"]

/-- Positional parameter mapping of the bridge: lists of length 1, 2, 3
map to (lambda), (phi, lambda), (theta, phi, lambda); others leave all
three angles at zero. Returns (theta, phi, lambda). -/
def paramsToAngles (params : List ℚ) : ℚ × ℚ × ℚ :=
  match params with
  | [l] => (0, 0, l)
  | [p, l] => (0, p, l)
  | [t, p, l] => (t, p, l)
  | _ => (0, 0, 0)

/-- Drop the last n elements of a list (n successive pop_back calls). -/
def dropLastN (l : List ℕ) (n : ℕ) : List ℕ :=
  l.take (l.length - n)

/-- QuantumComputation::addQiskitOperation — all arguments but the last
become (positive) controls, the last is the target, parameters map
positionally. -/
def addQiskitOperation (st : BridgeState) (g : Gate) (qargs : List ℕ)
    (params : List ℚ) : BridgeState :=
  let target := qargs.getLastD 0
  let ctrls := qargs.dropLast.map (fun q => (⟨q, false⟩ : Control))
  let a := paramsToAngles params
  { st with qc := { st.qc with
      ops := st.qc.ops ++ [.std st.qc.nqubits ctrls [target] g (.params a.1 a.2.1 a.2.2)] } }

/-- QuantumComputation::addTwoTargetQiskitOperation — the last two
arguments become the two targets, the rest controls. -/
def addTwoTargetQiskitOperation (st : BridgeState) (g : Gate) (qargs : List ℕ)
    (params : List ℚ) : BridgeState :=
  let target1 := qargs.getLastD 0
  let rest := qargs.dropLast
  let target0 := rest.getLastD 0
  let ctrls := rest.dropLast.map (fun q => (⟨q, false⟩ : Control))
  let a := paramsToAngles params
  { st with qc := { st.qc with
      ops := st.qc.ops ++ [.std st.qc.nqubits ctrls [target0, target1] g (.params a.1 a.2.1 a.2.2)] } }

mutual

/-- QuantumComputation::emplaceQiskitOperation — dispatch of one foreign
instruction: measure and barrier map to non-unitary operations; names in
the supported table map through the name chain (with the helper-argument
trimming of the mcx_recursive and mcx_vchain variants); anything else is
expanded through its definition, and a missing definition is one
reported failure with the circuit untouched. -/
def emplaceQiskitOperation (st : BridgeState) (inst : PyInst)
    (qargs cargs : List ℕ) : BridgeState :=
  match inst with
  | .mk name _ _ params defn =>
      if name = "measure" then
        { st with qc := { st.qc with
            ops := st.qc.ops ++ [.nonunitary st.qc.nqubits [qargs.getD 0 0, cargs.getD 0 0] .measure] } }
      else if name = "barrier" then
        { st with qc := { st.qc with
            ops := st.qc.ops ++ [.nonunitary st.qc.nqubits qargs .barrier] } }
      else if name ∈ nativelySupportedGates then
        if name = "i" ∨ name = "id" ∨ name = "iden" then
          addQiskitOperation st .I qargs params
        else if name = "x" ∨ name = "cx" ∨ name = "ccx" ∨ name = "mcx_gray" then
          addQiskitOperation st .X qargs params
        else if name = "y" ∨ name = "cy" then
          addQiskitOperation st .Y qargs params
        else if name = "z" ∨ name = "cz" then
          addQiskitOperation st .Z qargs params
        else if name = "h" ∨ name = "ch" then
          addQiskitOperation st .H qargs params
        else if name = "s" then addQiskitOperation st .S qargs params
        else if name = "sdg" then addQiskitOperation st .Sdag qargs params
        else if name = "t" then addQiskitOperation st .T qargs params
        else if name = "tdg" then addQiskitOperation st .Tdag qargs params
        else if name = "rx" ∨ name = "crx" ∨ name = "mcrx" then
          addQiskitOperation st .RX qargs params
        else if name = "ry" ∨ name = "cry" ∨ name = "mcry" then
          addQiskitOperation st .RY qargs params
        else if name = "rz" ∨ name = "crz" ∨ name = "mcrz" then
          addQiskitOperation st .RZ qargs params
        else if name = "p" ∨ name = "u1" ∨ name = "cp" ∨ name = "cu1" ∨ name = "mcphase" then
          addQiskitOperation st .Phase qargs params
        else if name = "sx" ∨ name = "csx" then
          addQiskitOperation st .SX qargs params
        else if name = "sxdg" then addQiskitOperation st .SXdag qargs params
        else if name = "u2" then addQiskitOperation st .U2 qargs params
        else if name = "u" ∨ name = "u3" ∨ name = "cu3" then
          addQiskitOperation st .U3 qargs params
        else if name = "swap" ∨ name = "cswap" then
          addTwoTargetQiskitOperation st .SWAP qargs params
        else if name = "iswap" then
          addTwoTargetQiskitOperation st .iSWAP qargs params
        else if name = "mcx_recursive" then
          if qargs.length ≤ 5 then
            addQiskitOperation st .X qargs params
          else
            addQiskitOperation st .X qargs.dropLast params
        else if name = "mcx_vchain" then
          let size := qargs.length
          let ncontrols := (size + 1) / 2
          addQiskitOperation st .X (dropLastN qargs (ncontrols - 2)) params
        else st
      else
        match defn with
        | none => { st with failures := st.failures + 1 }
        | some subs => importQiskitDefinition st subs qargs cargs

/-- QuantumComputation::importQiskitDefinition — translate a definition
sub-circuit by remapping every sub-instruction's local qubit/bit
arguments through the enclosing call's actual arguments and recursing. -/
def importQiskitDefinition (st : BridgeState) (insts : List PyInst)
    (qargs cargs : List ℕ) : BridgeState :=
  match insts with
  | [] => st
  | i :: rest =>
      let st' := emplaceQiskitOperation st i
        (i.qargsOf.map (fun j => qargs.getD j 0))
        (i.cargsOf.map (fun j => cargs.getD j 0))
      importQiskitDefinition st' rest qargs cargs

end

/-- Entry point of the bridge for one top-level foreign instruction,
whose arguments are already absolute. -/
def emplaceTop (st : BridgeState) (inst : PyInst) : BridgeState :=
  emplaceQiskitOperation st inst inst.qargsOf inst.cargsOf

/-! ## Specification-side predicates -/

/-- A permutation is a bijection defined over exactly the index set
0..n-1: total there and nowhere else, injective, with values in and
onto 0..n-1. -/
def isBijectionOver (p : Permutation) (n : ℕ) : Prop :=
  (∀ i, (alookup p i).isSome ↔ i < n) ∧
  (∀ i j v, alookup p i = some v → alookup p j = some v → i = j) ∧
  (∀ i v, alookup p i = some v → v < n) ∧
  (∀ v, v < n → ∃ i, alookup p i = some v)

/-- Well-formedness of a qubit register table over width n: ranges stay
inside 0..n-1, are non-empty, cover every index, names are unique, and
ranges of distinct registers do not overlap (the data-model invariant
maintained by the importers and register growth). -/
def RegsCover (regs : RegMap) (n : ℕ) : Prop :=
  (∀ r ∈ regs, r.2.1 + r.2.2 ≤ n) ∧
  (∀ r ∈ regs, 0 < r.2.2) ∧
  (∀ i < n, ∃ r ∈ regs, r.2.1 ≤ i ∧ i < r.2.1 + r.2.2) ∧
  (regs.map Prod.fst).Nodup ∧
  regs.Pairwise (fun a b => a.2.1 + a.2.2 ≤ b.2.1 ∨ b.2.1 + b.2.2 ≤ a.2.1)

instance (regs : RegMap) (n : ℕ) : Decidable (RegsCover regs n) := by
  unfold RegsCover
  infer_instance

/-- The final accumulator of the decision-diagram fold, as a pure
function of the operation list and the initial edge. -/
def ddResult (pkg : DDPackage) (perm : Permutation) (es : Bool) :
    List Op → ℕ → ℕ
  | [], e => e
  | op :: rest, e => ddResult pkg perm es rest (pkg.mult (pkg.getDD op perm es) e)

/-- The spec sentence's effective control count for the mcx v-chain
variant, read literally: the ceiling of (argCount + 1) / 2. -/
def specVchainEffectiveControls (n : ℕ) : ℕ := (n + 1 + 1) / 2

/-- A two-qubit circuit with two one-qubit registers, used as a
concrete instantiation input. -/
def twoQubitQC : QuantumComputation :=
  { nqubits := 2, qregs := [("a", (0, 1)), ("b", (1, 1))] }

/-- The circuit twoQubitQC after the REAL body line of a controlled X
from register a onto register b. -/
def twoQubitQCcx : QuantumComputation :=
  { nqubits := 2, qregs := [("a", (0, 1)), ("b", (1, 1))],
    ops := [Op.std 2 [⟨0, false⟩] [1] .X (.params 0 0 0)], max_controls := 1 }

/-- The result of importing the one-statement OpenQASM program
creg c[1] into an empty circuit: no qubits and no operations, yet
max_controls seeded at 2 by the import path. -/
def cregOnlyQC : QuantumComputation :=
  { nclassics := 1, cregs := [("c", (0, 1))], max_controls := 2 }

/-- A three-qubit circuit with one register, identity permutations and
one Hadamard on qubit 0, used as a concrete stripping input. -/
def stripWitnessQC : QuantumComputation :=
  { nqubits := 3, qregs := [("q", (0, 3))],
    inputPermutation := [(0, 0), (1, 1), (2, 2)],
    outputPermutation := [(0, 0), (1, 1), (2, 2)],
    ops := [.std 3 [] [0] .H (.params 0 0 0)] }

/-! ## General lemmas -/

theorem alookup_append [DecidableEq α] (l1 l2 : List (α × β)) (k : α) :
    alookup (l1 ++ l2) k =
      match alookup l1 k with
      | some v => some v
      | none => alookup l2 k := by
  induction l1 with
  | nil => simp [alookup]
  | cons hd tl ih =>
      by_cases hk : k = hd.1
      · simp [alookup, hk]
      · simpa [alookup, hk] using ih

theorem alookup_identityPerm (n i : ℕ) :
    alookup (identityPerm n) i = if i < n then some i else none := by
  induction n with
  | zero => simp [identityPerm, alookup]
  | succ n ih =>
      have : identityPerm (n + 1) = identityPerm n ++ [(n, n)] := by
        simp [identityPerm, List.range_succ]
      rw [this, alookup_append]
      rcases lt_trichotomy i n with h | rfl | h
      · simp [ih, h, Nat.lt_succ_of_lt h]
      · simp [ih, alookup]
      · have h1 : ¬ i < n := by omega
        have h2 : ¬ i < n + 1 := by omega
        have h3 : i ≠ n := by omega
        simp [ih, h1, h2, alookup, h3]

theorem idInsert_nil (n : ℕ) : idInsert [] n = identityPerm n := by
  induction n with
  | zero => simp [idInsert, identityPerm]
  | succ n ih =>
      have hstep : idInsert [] (n + 1) = insertNew (idInsert [] n) n n := by
        simp [idInsert, List.range_succ]
      rw [hstep, ih]
      have hnone : alookup (identityPerm n) n = none := by
        simp [alookup_identityPerm]
      unfold insertNew
      rw [hnone]
      simp [identityPerm, List.range_succ]

theorem identityPerm_bijection (n : ℕ) : isBijectionOver (identityPerm n) n := by
  refine ⟨?_, ?_, ?_, ?_⟩
  · intro i
    rw [alookup_identityPerm]
    by_cases h : i < n <;> simp [h]
  · intro i j v hi hj
    rw [alookup_identityPerm] at hi hj
    by_cases h1 : i < n
    · by_cases h2 : j < n
      · simp [h1] at hi
        simp [h2] at hj
        omega
      · simp [h2] at hj
    · simp [h1] at hi
  · intro i v h
    rw [alookup_identityPerm] at h
    by_cases h1 : i < n
    · simp [h1] at h
      omega
    · simp [h1] at h
  · intro v hv
    exact ⟨v, by simp [alookup_identityPerm, hv]⟩

/-! ## C9: addClassicalRegister frame effect -/

/-- C9: for a register name not yet in the classical register table,
addClassicalRegister(count, name) only appends the new register at the
current classical width and increases classicalBitCount by count; the
qubit count, both register tables apart from the classical one, both
permutations, the operation sequence (hence every operation's recorded
width) and max_controls are unchanged. -/
theorem C9_addClassicalRegister_frame (c : QuantumComputation) (nc : ℕ) (name : String)
    (h : alookup c.cregs name = none) :
    addClassicalRegister c nc name =
      some { c with
        cregs := c.cregs ++ [(name, (c.nclassics, nc))]
        nclassics := c.nclassics + nc } ∧
    ∀ c', addClassicalRegister c nc name = some c' →
      c'.nqubits = c.nqubits ∧ c'.qregs = c.qregs ∧
      c'.inputPermutation = c.inputPermutation ∧
      c'.outputPermutation = c.outputPermutation ∧
      c'.ops = c.ops ∧ c'.max_controls = c.max_controls ∧
      alookup c'.cregs name = some (c.nclassics, nc) ∧
      c'.nclassics = c.nclassics + nc := by
  have hmain : addClassicalRegister c nc name =
      some { c with
        cregs := c.cregs ++ [(name, (c.nclassics, nc))]
        nclassics := c.nclassics + nc } := by
    simp [addClassicalRegister, h, insertNew]
  refine ⟨hmain, ?_⟩
  intro c' hc'
  rw [hmain] at hc'
  injection hc' with hc'
  subst hc'
  refine ⟨rfl, rfl, rfl, rfl, rfl, rfl, ?_, rfl⟩
  simpa using alookup_append_right c.cregs name (c.nclassics, nc) h

/-- C9 witness: a concrete instantiation of the frame theorem. -/
theorem C9_witness :
    alookup ({ nclassics := 2, cregs := [("a", (0, 2))] } : QuantumComputation).cregs "b" = none ∧
    (addClassicalRegister { nclassics := 2, cregs := [("a", (0, 2))] } 3 "b" =
      some { nclassics := 5, cregs := [("a", (0, 2)), ("b", (2, 3))] } ∧
    ∀ c', addClassicalRegister ({ nclassics := 2, cregs := [("a", (0, 2))] } : QuantumComputation) 3 "b" = some c' →
      c'.nqubits = ({ nclassics := 2, cregs := [("a", (0, 2))] } : QuantumComputation).nqubits ∧
      c'.qregs = ({ nclassics := 2, cregs := [("a", (0, 2))] } : QuantumComputation).qregs ∧
      c'.inputPermutation = ({ nclassics := 2, cregs := [("a", (0, 2))] } : QuantumComputation).inputPermutation ∧
      c'.outputPermutation = ({ nclassics := 2, cregs := [("a", (0, 2))] } : QuantumComputation).outputPermutation ∧
      c'.ops = ({ nclassics := 2, cregs := [("a", (0, 2))] } : QuantumComputation).ops ∧
      c'.max_controls = ({ nclassics := 2, cregs := [("a", (0, 2))] } : QuantumComputation).max_controls ∧
      alookup c'.cregs "b" = some (2, 3) ∧
      c'.nclassics = 2 + 3) :=
  ⟨by decide, C9_addClassicalRegister_frame { nclassics := 2, cregs := [("a", (0, 2))] } 3 "b" (by decide)⟩

/-! ## Decision-diagram fold: trace lemmas, C5 and C10 -/

theorem incList_append (t1 t2 : List DDEvent) :
    incList (t1 ++ t2) = incList t1 ++ incList t2 := by
  simp [incList]

theorem decList_append (t1 t2 : List DDEvent) :
    decList (t1 ++ t2) = decList t1 ++ decList t2 := by
  simp [decList]

theorem gcCount_append (t1 t2 : List DDEvent) :
    gcCount (t1 ++ t2) = gcCount t1 + gcCount t2 := by
  simp [gcCount, List.countP_append]

theorem ddAccums_length (pkg : DDPackage) (perm : Permutation) (es : Bool) :
    ∀ ops e0, (ddAccums pkg perm es ops e0).length = ops.length + 1 := by
  intro ops
  induction ops with
  | nil => intro e0; simp [ddAccums]
  | cons op rest ih => intro e0; simp [ddAccums, ih]

/-- The shared fold produces the final accumulator together with a trace
whose retains are exactly the successive accumulators after the initial
one, whose releases are exactly the superseded accumulators in
acquisition order, and which collects garbage once per operation. -/
theorem ddFold_trace (pkg : DDPackage) (perm : Permutation) (es : Bool) :
    ∀ ops e0, (∀ op ∈ ops, op.isUnitary = true) →
      ∃ tr, ddFold pkg perm es ops e0 = some (ddResult pkg perm es ops e0, tr) ∧
        incList tr = (ddAccums pkg perm es ops e0).drop 1 ∧
        decList tr = (ddAccums pkg perm es ops e0).dropLast ∧
        gcCount tr = ops.length := by
  intro ops
  induction ops with
  | nil =>
      intro e0 _
      exact ⟨[], by simp [ddFold, ddResult], by simp [ddAccums, incList],
        by simp [ddAccums, decList], by simp [gcCount]⟩
  | cons op rest ih =>
      intro e0 hu
      have hop : op.isUnitary = true := hu op (by simp)
      have hrest : ∀ o ∈ rest, o.isUnitary = true := fun o ho => hu o (by simp [ho])
      obtain ⟨tr, hfold, hinc, hdec, hgc⟩ :=
        ih (pkg.mult (pkg.getDD op perm es) e0) hrest
      refine ⟨[.multiplyEv (pkg.getDD op perm es) e0,
               .incRef (pkg.mult (pkg.getDD op perm es) e0),
               .decRef e0, .gcEv] ++ tr, ?_, ?_, ?_, ?_⟩
      · simp only [ddFold, hop, if_true, hfold]
        rfl
      · rw [incList_append, hinc]
        have : ddAccums pkg perm es (op :: rest) e0 =
            e0 :: ddAccums pkg perm es rest (pkg.mult (pkg.getDD op perm es) e0) := rfl
        rw [this]
        rcases hne : ddAccums pkg perm es rest (pkg.mult (pkg.getDD op perm es) e0) with _ | ⟨a, l⟩
        · have := ddAccums_length pkg perm es rest (pkg.mult (pkg.getDD op perm es) e0)
          rw [hne] at this
          simp at this
        · have hhead : a = pkg.mult (pkg.getDD op perm es) e0 := by
            cases rest with
            | nil => simpa [ddAccums] using congrArg (fun l => l.headD 0) hne.symm
            | cons o r => simpa [ddAccums] using congrArg (fun l => l.headD 0) hne.symm
          subst hhead
          simp [incList]
      · rw [decList_append, hdec]
        have hcons : ddAccums pkg perm es (op :: rest) e0 =
            e0 :: ddAccums pkg perm es rest (pkg.mult (pkg.getDD op perm es) e0) := rfl
        rw [hcons]
        have hne : ddAccums pkg perm es rest (pkg.mult (pkg.getDD op perm es) e0) ≠ [] := by
          intro hc
          have := ddAccums_length pkg perm es rest (pkg.mult (pkg.getDD op perm es) e0)
          rw [hc] at this
          simp at this
        rw [List.dropLast_cons_of_ne_nil hne]
        simp [decList]
      · rw [gcCount_append, hgc]
        simp [gcCount]
        omega

/-- C5: during a buildFunctionality or simulate fold (all operations
unitary; for the functionality build, a non-zero qubit count so the
fold actually runs), every accumulator edge retained across a fold step
is released exactly once when superseded and in acquisition order (the
released edges are exactly the non-final accumulators, in order), the
garbage collector runs once per folded operation, and the retains exceed
the releases by exactly one — the final result. -/
theorem C5_refcounting (pkg : DDPackage) (c : QuantumComputation) (es : Bool) (inE : ℕ)
    (hu : ∀ op ∈ c.ops, op.isUnitary = true) (hq : c.nqubits ≠ 0) :
    (∃ tr,
      buildFunctionality pkg c es =
        some (ddResult pkg c.outputPermutation es c.ops (pkg.makeIdent 0 (c.nqubits - 1)), tr) ∧
      incList tr = ddAccums pkg c.outputPermutation es c.ops (pkg.makeIdent 0 (c.nqubits - 1)) ∧
      decList tr = (ddAccums pkg c.outputPermutation es c.ops (pkg.makeIdent 0 (c.nqubits - 1))).dropLast ∧
      gcCount tr = c.ops.length ∧
      (incList tr).length = (decList tr).length + 1) ∧
    (∃ tr,
      simulate pkg c inE es = some (ddResult pkg c.outputPermutation es c.ops inE, tr) ∧
      incList tr = ddAccums pkg c.outputPermutation es c.ops inE ∧
      decList tr = (ddAccums pkg c.outputPermutation es c.ops inE).dropLast ∧
      gcCount tr = c.ops.length ∧
      (incList tr).length = (decList tr).length + 1) := by
  constructor
  · obtain ⟨tr, hfold, hinc, hdec, hgc⟩ :=
      ddFold_trace pkg c.outputPermutation es c.ops (pkg.makeIdent 0 (c.nqubits - 1)) hu
    refine ⟨[DDEvent.setNorm true, DDEvent.incRef (pkg.makeIdent 0 (c.nqubits - 1))] ++
        tr ++ [DDEvent.setNorm false], ?_, ?_, ?_, ?_, ?_⟩
    · unfold buildFunctionality
      rw [if_neg hq]
      simp only [hfold]
    · rw [incList_append, incList_append, hinc]
      have hcons : ∀ e0, e0 :: (ddAccums pkg c.outputPermutation es c.ops e0).drop 1 =
          ddAccums pkg c.outputPermutation es c.ops e0 := by
        intro e0
        cases c.ops with
        | nil => simp [ddAccums]
        | cons o r => simp [ddAccums]
      simpa [incList] using hcons (pkg.makeIdent 0 (c.nqubits - 1))
    · rw [decList_append, decList_append, hdec]
      simp [decList]
    · rw [gcCount_append, gcCount_append, hgc]
      simp [gcCount]
    · rw [incList_append, incList_append, hinc, decList_append, decList_append, hdec]
      have hlen := ddAccums_length pkg c.outputPermutation es c.ops (pkg.makeIdent 0 (c.nqubits - 1))
      have h1 : incList [DDEvent.setNorm true, DDEvent.incRef (pkg.makeIdent 0 (c.nqubits - 1))] =
          [pkg.makeIdent 0 (c.nqubits - 1)] := by simp [incList]
      have h2 : incList [DDEvent.setNorm false] = [] := by simp [incList]
      have h3 : decList [DDEvent.setNorm true, DDEvent.incRef (pkg.makeIdent 0 (c.nqubits - 1))] = [] := by
        simp [decList]
      have h4 : decList [DDEvent.setNorm false] = [] := by simp [decList]
      rw [h1, h2, h3, h4]
      simp only [List.length_append, List.length_cons, List.length_nil, List.length_drop,
        List.length_dropLast, hlen]
      omega
  · obtain ⟨tr, hfold, hinc, hdec, hgc⟩ :=
      ddFold_trace pkg c.outputPermutation es c.ops inE hu
    refine ⟨DDEvent.incRef inE :: tr, ?_, ?_, ?_, ?_, ?_⟩
    · simp only [simulate, hfold]
    · have : incList (DDEvent.incRef inE :: tr) = inE :: incList tr := by simp [incList]
      rw [this, hinc]
      cases c.ops with
      | nil => simp [ddAccums]
      | cons o r => simp [ddAccums]
    · have : decList (DDEvent.incRef inE :: tr) = decList tr := by simp [decList]
      rw [this, hdec]
    · have : gcCount (DDEvent.incRef inE :: tr) = gcCount tr := by simp [gcCount]
      rw [this, hgc]
    · have h1 : incList (DDEvent.incRef inE :: tr) = inE :: incList tr := by simp [incList]
      have h2 : decList (DDEvent.incRef inE :: tr) = decList tr := by simp [decList]
      rw [h1, h2, hinc, hdec]
      simp [List.length_drop, List.length_dropLast]

/-- C5 witness: the reference-counting theorem instantiated on a
one-qubit, one-operation circuit with a concrete backend. -/
theorem C5_witness :
    ((∀ op ∈ ({ nqubits := 1, ops := [Op.std 1 [] [0] .H (.params 0 0 0)] } : QuantumComputation).ops,
        op.isUnitary = true) ∧
      ({ nqubits := 1, ops := [Op.std 1 [] [0] .H (.params 0 0 0)] } : QuantumComputation).nqubits ≠ 0) ∧
    ((∃ tr,
      buildFunctionality ⟨fun a b => a + b, 0, fun a b => 2 * a + 3 * b + 1, fun _ _ _ => 5⟩
          { nqubits := 1, ops := [Op.std 1 [] [0] .H (.params 0 0 0)] } false =
        some (ddResult ⟨fun a b => a + b, 0, fun a b => 2 * a + 3 * b + 1, fun _ _ _ => 5⟩
          ({ nqubits := 1, ops := [Op.std 1 [] [0] .H (.params 0 0 0)] } : QuantumComputation).outputPermutation false
          ({ nqubits := 1, ops := [Op.std 1 [] [0] .H (.params 0 0 0)] } : QuantumComputation).ops
          (DDPackage.makeIdent ⟨fun a b => a + b, 0, fun a b => 2 * a + 3 * b + 1, fun _ _ _ => 5⟩ 0
            (({ nqubits := 1, ops := [Op.std 1 [] [0] .H (.params 0 0 0)] } : QuantumComputation).nqubits - 1)), tr) ∧
      incList tr = ddAccums ⟨fun a b => a + b, 0, fun a b => 2 * a + 3 * b + 1, fun _ _ _ => 5⟩
          ({ nqubits := 1, ops := [Op.std 1 [] [0] .H (.params 0 0 0)] } : QuantumComputation).outputPermutation false
          ({ nqubits := 1, ops := [Op.std 1 [] [0] .H (.params 0 0 0)] } : QuantumComputation).ops
          (DDPackage.makeIdent ⟨fun a b => a + b, 0, fun a b => 2 * a + 3 * b + 1, fun _ _ _ => 5⟩ 0
            (({ nqubits := 1, ops := [Op.std 1 [] [0] .H (.params 0 0 0)] } : QuantumComputation).nqubits - 1)) ∧
      decList tr = (ddAccums ⟨fun a b => a + b, 0, fun a b => 2 * a + 3 * b + 1, fun _ _ _ => 5⟩
          ({ nqubits := 1, ops := [Op.std 1 [] [0] .H (.params 0 0 0)] } : QuantumComputation).outputPermutation false
          ({ nqubits := 1, ops := [Op.std 1 [] [0] .H (.params 0 0 0)] } : QuantumComputation).ops
          (DDPackage.makeIdent ⟨fun a b => a + b, 0, fun a b => 2 * a + 3 * b + 1, fun _ _ _ => 5⟩ 0
            (({ nqubits := 1, ops := [Op.std 1 [] [0] .H (.params 0 0 0)] } : QuantumComputation).nqubits - 1))).dropLast ∧
      gcCount tr = ({ nqubits := 1, ops := [Op.std 1 [] [0] .H (.params 0 0 0)] } : QuantumComputation).ops.length ∧
      (incList tr).length = (decList tr).length + 1) ∧
    (∃ tr,
      simulate ⟨fun a b => a + b, 0, fun a b => 2 * a + 3 * b + 1, fun _ _ _ => 5⟩
          { nqubits := 1, ops := [Op.std 1 [] [0] .H (.params 0 0 0)] } 9 false =
        some (ddResult ⟨fun a b => a + b, 0, fun a b => 2 * a + 3 * b + 1, fun _ _ _ => 5⟩
          ({ nqubits := 1, ops := [Op.std 1 [] [0] .H (.params 0 0 0)] } : QuantumComputation).outputPermutation false
          ({ nqubits := 1, ops := [Op.std 1 [] [0] .H (.params 0 0 0)] } : QuantumComputation).ops 9, tr) ∧
      incList tr = ddAccums ⟨fun a b => a + b, 0, fun a b => 2 * a + 3 * b + 1, fun _ _ _ => 5⟩
          ({ nqubits := 1, ops := [Op.std 1 [] [0] .H (.params 0 0 0)] } : QuantumComputation).outputPermutation false
          ({ nqubits := 1, ops := [Op.std 1 [] [0] .H (.params 0 0 0)] } : QuantumComputation).ops 9 ∧
      decList tr = (ddAccums ⟨fun a b => a + b, 0, fun a b => 2 * a + 3 * b + 1, fun _ _ _ => 5⟩
          ({ nqubits := 1, ops := [Op.std 1 [] [0] .H (.params 0 0 0)] } : QuantumComputation).outputPermutation false
          ({ nqubits := 1, ops := [Op.std 1 [] [0] .H (.params 0 0 0)] } : QuantumComputation).ops 9).dropLast ∧
      gcCount tr = ({ nqubits := 1, ops := [Op.std 1 [] [0] .H (.params 0 0 0)] } : QuantumComputation).ops.length ∧
      (incList tr).length = (decList tr).length + 1)) :=
  ⟨⟨by decide, by decide⟩,
    C5_refcounting ⟨fun a b => a + b, 0, fun a b => 2 * a + 3 * b + 1, fun _ _ _ => 5⟩
      { nqubits := 1, ops := [Op.std 1 [] [0] .H (.params 0 0 0)] } false 9
      (by decide) (by decide)⟩

/-- C10: simulate on a circuit with an empty operation sequence returns
exactly the caller-supplied input edge; the trace is a single retain of
that edge — no multiplication, no garbage collection, and no touch of
the matrix-normalization mode. -/
theorem C10_simulate_empty (pkg : DDPackage) (c : QuantumComputation) (inE : ℕ) (es : Bool)
    (h : c.ops = []) :
    simulate pkg c inE es = some (inE, [DDEvent.incRef inE]) ∧
    incList [DDEvent.incRef inE] = [inE] ∧
    gcCount [DDEvent.incRef inE] = 0 ∧
    decList [DDEvent.incRef inE] = [] ∧
    (∀ a b, DDEvent.multiplyEv a b ∉ [DDEvent.incRef inE]) ∧
    (∀ b, DDEvent.setNorm b ∉ [DDEvent.incRef inE]) := by
  refine ⟨?_, by simp [incList], by simp [gcCount], by simp [decList], ?_, ?_⟩
  · simp [simulate, h, ddFold]
  · intro a b
    simp
  · intro b
    simp

/-- C10 witness: the empty-sequence simulate theorem at a concrete
backend, circuit and input edge. -/
theorem C10_witness :
    (({ nqubits := 2 } : QuantumComputation).ops = []) ∧
    (simulate ⟨fun a b => a + b, 0, fun a b => a * b + 1, fun _ _ _ => 7⟩
        { nqubits := 2 } 5 true = some (5, [DDEvent.incRef 5]) ∧
      incList [DDEvent.incRef 5] = [5] ∧
      gcCount [DDEvent.incRef 5] = 0 ∧
      decList [DDEvent.incRef 5] = [] ∧
      (∀ a b, DDEvent.multiplyEv a b ∉ [DDEvent.incRef 5]) ∧
      (∀ b, DDEvent.setNorm b ∉ [DDEvent.incRef 5])) :=
  ⟨rfl, C10_simulate_empty ⟨fun a b => a + b, 0, fun a b => a * b + 1, fun _ _ _ => 7⟩
    { nqubits := 2 } 5 true rfl⟩

/-! ## Bridge dispatch lemmas, C7 and C8 -/

theorem emplaceQiskit_unknown_eq (st : BridgeState) (name : String) (qa ca : List ℕ)
    (params : List ℚ) (qargs cargs : List ℕ)
    (h1 : name ≠ "measure") (h2 : name ≠ "barrier")
    (h3 : name ∉ nativelySupportedGates) :
    emplaceQiskitOperation st (.mk name qa ca params none) qargs cargs =
      { st with failures := st.failures + 1 } := by
  unfold emplaceQiskitOperation
  simp [h1, h2, h3]

theorem emplaceQiskit_vchain_eq (st : BridgeState) (qa ca : List ℕ)
    (params : List ℚ) (d : Option (List PyInst)) (qargs cargs : List ℕ) :
    emplaceQiskitOperation st (.mk "mcx_vchain" qa ca params d) qargs cargs =
      addQiskitOperation st .X (dropLastN qargs ((qargs.length + 1) / 2 - 2)) params := by
  unfold emplaceQiskitOperation
  simp [nativelySupportedGates]

theorem emplaceQiskit_recursive_eq (st : BridgeState) (qa ca : List ℕ)
    (params : List ℚ) (d : Option (List PyInst)) (qargs cargs : List ℕ) :
    emplaceQiskitOperation st (.mk "mcx_recursive" qa ca params d) qargs cargs =
      if qargs.length ≤ 5 then addQiskitOperation st .X qargs params
      else addQiskitOperation st .X qargs.dropLast params := by
  unfold emplaceQiskitOperation
  simp [nativelySupportedGates]

/-- C8: a foreign instruction that is neither in the supported-gate
table (nor a measurement or barrier) and has no usable definition
leaves the circuit untouched, bumps the reported-failure count by
exactly one, and translation of the remaining instruction stream
continues from that state. -/
theorem C8_unknown_nonfatal (st : BridgeState) (name : String) (qa ca : List ℕ)
    (params : List ℚ) (qargs cargs : List ℕ) (rest : List PyInst)
    (h1 : name ≠ "measure") (h2 : name ≠ "barrier")
    (h3 : name ∉ nativelySupportedGates) :
    (emplaceQiskitOperation st (.mk name qa ca params none) qargs cargs).qc = st.qc ∧
    (emplaceQiskitOperation st (.mk name qa ca params none) qargs cargs).failures =
      st.failures + 1 ∧
    importQiskitDefinition st (PyInst.mk name qa ca params none :: rest) qargs cargs =
      importQiskitDefinition { st with failures := st.failures + 1 } rest qargs cargs := by
  have key : ∀ qargs' cargs' : List ℕ,
      emplaceQiskitOperation st (.mk name qa ca params none) qargs' cargs' =
        { st with failures := st.failures + 1 } := by
    intro qargs' cargs'
    exact emplaceQiskit_unknown_eq st name qa ca params qargs' cargs' h1 h2 h3
  refine ⟨by rw [key], by rw [key], ?_⟩
  conv_lhs => rw [importQiskitDefinition]
  simp only [PyInst.qargsOf, PyInst.cargsOf]
  rw [key]

/-- C8 witness: the non-fatal skip at a concrete unknown instruction. -/
theorem C8_witness :
    (("mygate" : String) ≠ "measure" ∧ ("mygate" : String) ≠ "barrier" ∧
      ("mygate" : String) ∉ nativelySupportedGates) ∧
    ((emplaceQiskitOperation ⟨emptyQC, 0⟩ (.mk "mygate" [0] [] [] none) [0] []).qc =
        (⟨emptyQC, 0⟩ : BridgeState).qc ∧
      (emplaceQiskitOperation ⟨emptyQC, 0⟩ (.mk "mygate" [0] [] [] none) [0] []).failures =
        (⟨emptyQC, 0⟩ : BridgeState).failures + 1 ∧
      importQiskitDefinition ⟨emptyQC, 0⟩ [PyInst.mk "mygate" [0] [] [] none] [0] [] =
        importQiskitDefinition ⟨emptyQC, 0 + 1⟩ [] [0] []) :=
  ⟨⟨by decide, by decide, by decide⟩,
    C8_unknown_nonfatal ⟨emptyQC, 0⟩ "mygate" [0] [] [] [0] [] []
      (by decide) (by decide) (by decide)⟩

/-- C7 counterexample: an mcx_vchain instruction with six arguments.
The code computes floor((6+1)/2) = 3 effective controls and pops one
trailing helper, emitting a multi-controlled X over the five remaining
arguments (four controls and one target); the claim's formula
ceil((6+1)/2) = 4 would require dropping two helpers. -/
theorem C7_counterexample :
    (emplaceQiskitOperation ⟨emptyQC, 0⟩ (.mk "mcx_vchain" [0, 1, 2, 3, 4, 5] [] [] none)
        [0, 1, 2, 3, 4, 5] []).qc.ops =
      [Op.std 0 [⟨0, false⟩, ⟨1, false⟩, ⟨2, false⟩, ⟨3, false⟩] [4] .X (.params 0 0 0)] ∧
    6 - (4 + 1) ≠ specVchainEffectiveControls 6 - 2 := by
  constructor
  · rw [emplaceQiskit_vchain_eq]
    rfl
  · decide

/-- C7 (amended): the recursive mcx variant drops its last argument
exactly when the argument count exceeds five; the v-chain variant
computes floor((argCount+1)/2) — not the ceiling — as the effective
control count and drops exactly that many minus two trailing helper
arguments before the multi-controlled X is emitted; floor and ceiling
agree precisely on odd argument counts (the well-formed v-chain case). -/
theorem C7_amended (st : BridgeState) (qa ca : List ℕ) (params : List ℚ)
    (d : Option (List PyInst)) (qargs cargs : List ℕ) :
    (emplaceQiskitOperation st (.mk "mcx_recursive" qa ca params d) qargs cargs =
      if qargs.length ≤ 5 then addQiskitOperation st .X qargs params
      else addQiskitOperation st .X qargs.dropLast params) ∧
    (emplaceQiskitOperation st (.mk "mcx_vchain" qa ca params d) qargs cargs =
      addQiskitOperation st .X (dropLastN qargs ((qargs.length + 1) / 2 - 2)) params) ∧
    (dropLastN qargs ((qargs.length + 1) / 2 - 2)).length =
      qargs.length - ((qargs.length + 1) / 2 - 2) ∧
    (qargs.length % 2 = 1 →
      (qargs.length + 1) / 2 = specVchainEffectiveControls qargs.length) := by
  refine ⟨emplaceQiskit_recursive_eq st qa ca params d qargs cargs,
    emplaceQiskit_vchain_eq st qa ca params d qargs cargs, ?_, ?_⟩
  · simp [dropLastN]
  · intro hodd
    unfold specVchainEffectiveControls
    omega

/-- C7 witness: the amended theorem instantiated at a seven-argument
v-chain call, the odd case where floor and ceiling agree. -/
theorem C7_witness :
    (([0, 1, 2, 3, 4, 5, 6] : List ℕ).length % 2 = 1) ∧
    (([0, 1, 2, 3, 4, 5, 6] : List ℕ).length + 1) / 2 =
      specVchainEffectiveControls ([0, 1, 2, 3, 4, 5, 6] : List ℕ).length :=
  ⟨by decide,
    (C7_amended ⟨emptyQC, 0⟩ [] [] [] none [0, 1, 2, 3, 4, 5, 6] []).2.2.2 (by decide)⟩

/-! ## C4: addQubitRegister -/

/-- C4 counterexample: at the hard width cap the claim fails. A circuit
of width dd::MAXN whose single register ends exactly at the current
qubit count (so it is the last register) still cannot be extended:
addQubitRegister rejects the call because the new total would exceed
the cap, while the claim as stated promises an in-place extension. -/
theorem C4_counterexample :
    alookup ({ nqubits := 128, qregs := [("q", (0, 128))] } : QuantumComputation).qregs "q" =
      some (0, 128) ∧
    0 + 128 = ({ nqubits := 128, qregs := [("q", (0, 128))] } : QuantumComputation).nqubits ∧
    addQubitRegister { nqubits := 128, qregs := [("q", (0, 128))] } 1 "q" = none := by
  refine ⟨by decide, by decide, ?_⟩
  have : dd_MAXN < 128 + 1 := by decide
  simp [addQubitRegister, this]

/-- C4 (amended): provided the resulting total stays within the hard
maximum width dd::MAXN, a name already in the qubit register table is
extended in place by count exactly when its range ends at the current
qubit count (it is the last register) — any other existing name makes
the call fail — and a fresh name creates a new register starting at the
current qubit count; in the successful cases the width grows by count. -/
theorem C4_amended (c : QuantumComputation) (nq : ℕ) (name : String)
    (hmax : c.nqubits + nq ≤ dd_MAXN) :
    (∀ s sz, alookup c.qregs name = some (s, sz) →
      ((addQubitRegister c nq name).isSome ↔ s + sz = c.nqubits)) ∧
    (∀ s sz, alookup c.qregs name = some (s, sz) → s + sz = c.nqubits →
      ∃ c', addQubitRegister c nq name = some c' ∧
        alookup c'.qregs name = some (s, sz + nq) ∧
        c'.nqubits = c.nqubits + nq ∧
        c'.ops = c.ops.map (fun op => op.setNqubits (c.nqubits + nq))) ∧
    (alookup c.qregs name = none →
      ∃ c', addQubitRegister c nq name = some c' ∧
        alookup c'.qregs name = some (c.nqubits, nq) ∧
        c'.nqubits = c.nqubits + nq ∧
        c'.ops = c.ops.map (fun op => op.setNqubits (c.nqubits + nq))) := by
  have hcap : ¬ dd_MAXN < c.nqubits + nq := by omega
  refine ⟨?_, ?_, ?_⟩
  · intro s sz hs
    unfold addQubitRegister
    rw [if_neg hcap, hs]
    by_cases hend : s + sz = c.nqubits
    · simp [hend]
    · simp [hend]
  · intro s sz hs hend
    refine ⟨finishAddQubits { c with qregs := setVal c.qregs name (s, sz + nq) } nq, ?_, ?_, ?_, ?_⟩
    · unfold addQubitRegister
      rw [if_neg hcap, hs]
      simp [hend]
    · simpa [finishAddQubits] using alookup_setVal_self c.qregs name (s, sz + nq)
    · simp [finishAddQubits]
    · simp [finishAddQubits]
  · intro hs
    refine ⟨finishAddQubits { c with qregs := c.qregs ++ [(name, (c.nqubits, nq))] } nq, ?_, ?_, ?_, ?_⟩
    · unfold addQubitRegister
      rw [if_neg hcap, hs]
    · simpa [finishAddQubits] using alookup_append_right c.qregs name (c.nqubits, nq) hs
    · simp [finishAddQubits]
    · simp [finishAddQubits]

/-- C4 witness: the amended theorem instantiated on a two-register
circuit where the second register ends at the current qubit count. -/
theorem C4_witness :
    (({ nqubits := 5, qregs := [("a", (0, 2)), ("b", (2, 3))] } : QuantumComputation).nqubits + 2 ≤ dd_MAXN) ∧
    ((∀ s sz, alookup ({ nqubits := 5, qregs := [("a", (0, 2)), ("b", (2, 3))] } : QuantumComputation).qregs "b" = some (s, sz) →
      ((addQubitRegister { nqubits := 5, qregs := [("a", (0, 2)), ("b", (2, 3))] } 2 "b").isSome ↔
        s + sz = ({ nqubits := 5, qregs := [("a", (0, 2)), ("b", (2, 3))] } : QuantumComputation).nqubits)) ∧
    (∀ s sz, alookup ({ nqubits := 5, qregs := [("a", (0, 2)), ("b", (2, 3))] } : QuantumComputation).qregs "b" = some (s, sz) →
      s + sz = ({ nqubits := 5, qregs := [("a", (0, 2)), ("b", (2, 3))] } : QuantumComputation).nqubits →
      ∃ c', addQubitRegister { nqubits := 5, qregs := [("a", (0, 2)), ("b", (2, 3))] } 2 "b" = some c' ∧
        alookup c'.qregs "b" = some (s, sz + 2) ∧
        c'.nqubits = ({ nqubits := 5, qregs := [("a", (0, 2)), ("b", (2, 3))] } : QuantumComputation).nqubits + 2 ∧
        c'.ops = ({ nqubits := 5, qregs := [("a", (0, 2)), ("b", (2, 3))] } : QuantumComputation).ops.map
          (fun op => op.setNqubits (({ nqubits := 5, qregs := [("a", (0, 2)), ("b", (2, 3))] } : QuantumComputation).nqubits + 2))) ∧
    (alookup ({ nqubits := 5, qregs := [("a", (0, 2)), ("b", (2, 3))] } : QuantumComputation).qregs "b" = none →
      ∃ c', addQubitRegister { nqubits := 5, qregs := [("a", (0, 2)), ("b", (2, 3))] } 2 "b" = some c' ∧
        alookup c'.qregs "b" = some (({ nqubits := 5, qregs := [("a", (0, 2)), ("b", (2, 3))] } : QuantumComputation).nqubits, 2) ∧
        c'.nqubits = ({ nqubits := 5, qregs := [("a", (0, 2)), ("b", (2, 3))] } : QuantumComputation).nqubits + 2 ∧
        c'.ops = ({ nqubits := 5, qregs := [("a", (0, 2)), ("b", (2, 3))] } : QuantumComputation).ops.map
          (fun op => op.setNqubits (({ nqubits := 5, qregs := [("a", (0, 2)), ("b", (2, 3))] } : QuantumComputation).nqubits + 2)))) :=
  ⟨by decide, C4_amended { nqubits := 5, qregs := [("a", (0, 2)), ("b", (2, 3))] } 2 "b" (by decide)⟩

/-! ## C6: REAL-format RZ/U1 snapping -/

theorem tolerance_pos : (0 : ℚ) < TOLERANCE := by norm_num [TOLERANCE]

theorem tolerance_lt_half : TOLERANCE < 1 / 2 := by norm_num [TOLERANCE]

theorem round_eq_of_abs_lt_half (lam : ℚ) (x : ℤ) (h : |lam - (x : ℚ)| < 1 / 2) :
    round lam = x := by
  rw [round_eq]
  rw [abs_sub_lt_iff] at h
  have h1 : (x : ℚ) ≤ lam + 1 / 2 := by linarith [h.2]
  have h2 : lam + 1 / 2 < (x : ℚ) + 1 := by linarith [h.1]
  rw [Int.floor_eq_iff]
  constructor
  · exact_mod_cast h1
  · linarith

/-- C6: in REAL body parsing, an RZ or U1 line whose colon literal lies
within the numerical tolerance of an integer x emits exactly Z for
x = 1 or -1, S for 2, S-dagger for -2, T for 4, T-dagger for -4, and a
generic rotation of pi over x for every other integer; a literal not
within tolerance of any integer emits a generic rotation of pi over the
literal itself. -/
theorem C6_rz_u1_snap (nq : ℕ) (controls : List Control) (target : ℕ)
    (gate : Gate) (lambda : ℚ) (hg : gate = .RZ ∨ gate = .U1) :
    (∀ x : ℤ, |lambda - (x : ℚ)| < TOLERANCE →
      realEmit nq controls target gate lambda =
        if x = 1 ∨ x = -1 then some (.std nq controls [target] .Z (.params 0 0 0))
        else if x = 2 then some (.std nq controls [target] .S (.params 0 0 0))
        else if x = -2 then some (.std nq controls [target] .Sdag (.params 0 0 0))
        else if x = 4 then some (.std nq controls [target] .T (.params 0 0 0))
        else if x = -4 then some (.std nq controls [target] .Tdag (.params 0 0 0))
        else some (.std nq controls [target] gate (.piDiv (x : ℚ)))) ∧
    ((∀ x : ℤ, TOLERANCE ≤ |lambda - (x : ℚ)|) →
      realEmit nq controls target gate lambda =
        some (.std nq controls [target] gate (.piDiv lambda))) := by
  constructor
  · intro x hx
    have hround : round lambda = x :=
      round_eq_of_abs_lt_half lambda x (lt_trans hx tolerance_lt_half)
    rcases hg with rfl | rfl <;>
      · simp only [realEmit, hround]
        rw [if_pos hx]
  · intro hfar
    have hnot : ¬ |lambda - ((round lambda : ℤ) : ℚ)| < TOLERANCE :=
      not_lt.mpr (hfar (round lambda))
    rcases hg with rfl | rfl <;>
      · simp only [realEmit]
        rw [if_neg hnot]

/-- C6 witness: a colon literal of 4 on an RZ line snaps to a T gate. -/
theorem C6_witness :
    (Gate.RZ = Gate.RZ ∨ Gate.RZ = Gate.U1) ∧
    (|(4 : ℚ) - ((4 : ℤ) : ℚ)| < TOLERANCE) ∧
    realEmit 2 [] 0 .RZ 4 =
      (if (4 : ℤ) = 1 ∨ (4 : ℤ) = -1 then some (Op.std 2 [] [0] .Z (.params 0 0 0))
       else if (4 : ℤ) = 2 then some (Op.std 2 [] [0] .S (.params 0 0 0))
       else if (4 : ℤ) = -2 then some (Op.std 2 [] [0] .Sdag (.params 0 0 0))
       else if (4 : ℤ) = 4 then some (Op.std 2 [] [0] .T (.params 0 0 0))
       else if (4 : ℤ) = -4 then some (Op.std 2 [] [0] .Tdag (.params 0 0 0))
       else some (Op.std 2 [] [0] .RZ (.piDiv ((4 : ℤ) : ℚ)))) :=
  ⟨Or.inl rfl, by norm_num [TOLERANCE],
    (C6_rz_u1_snap 2 [] 0 .RZ 4 (Or.inl rfl)).1 4 (by norm_num [TOLERANCE])⟩

/-! ## C2: maxControlCount -/

theorem applyQasmStmt_max_controls (c : QuantumComputation) (s : QasmStmt) :
    (applyQasmStmt c s).max_controls = c.max_controls := by
  cases s with
  | ifStmt nm n op =>
      simp only [applyQasmStmt]
      cases alookup c.cregs nm with
      | none => rfl
      | some p => cases p with | mk a b => rfl
  | qreg nm n => rfl
  | creg nm n => rfl
  | qop op => rfl
  | gateDecl => rfl
  | includeFile => rfl
  | barrier args => rfl
  | opaqueDecl => rfl
  | snapshot n args => rfl
  | probabilities => rfl

theorem foldl_applyQasmStmt_max_controls (stmts : List QasmStmt) :
    ∀ c, (stmts.foldl applyQasmStmt c).max_controls = c.max_controls := by
  induction stmts with
  | nil => intro c; rfl
  | cons s rest ih =>
      intro c
      rw [List.foldl_cons, ih, applyQasmStmt_max_controls]

theorem parseControls_length (c : QuantumComputation) :
    ∀ ls cs, parseControls c ls = some cs → cs.length = ls.length := by
  intro ls
  induction ls with
  | nil =>
      intro cs h
      simp only [parseControls] at h
      injection h with h
      rw [← h]
      rfl
  | cons l r ih =>
      intro cs h
      simp only [parseControls] at h
      cases halk : alookup c.qregs (stripNeg l).2 with
      | none => rw [halk] at h; simp at h
      | some p =>
          cases p with
          | mk s sz =>
              rw [halk] at h
              simp only [Option.map_eq_some'] at h
              obtain ⟨a, ha, hcs⟩ := h
              rw [← hcs]
              simp [ih a ha]

theorem realEmit_controlCount (nq : ℕ) (cs : List Control) (t : ℕ) (g : Gate) (lam : ℚ)
    (op : Op) (h : realEmit nq cs t g lam = some op) : op.controlCount ≤ cs.length := by
  cases g with
  | none_ => simp [realEmit] at h
  | iSWAP => simp [realEmit] at h
  | Phase => simp [realEmit] at h
  | SX => simp [realEmit] at h
  | SXdag => simp [realEmit] at h
  | X =>
      simp only [realEmit] at h
      injection h with h
      rw [← h]
      simp [Op.controlCount]
  | RX =>
      simp only [realEmit] at h
      injection h with h
      rw [← h]
      simp [Op.controlCount]
  | RY =>
      simp only [realEmit] at h
      injection h with h
      rw [← h]
      simp [Op.controlCount]
  | RZ =>
      simp only [realEmit] at h
      split_ifs at h <;>
        · injection h with h
          rw [← h]
          simp [Op.controlCount]
  | U1 =>
      simp only [realEmit] at h
      split_ifs at h <;>
        · injection h with h
          rw [← h]
          simp [Op.controlCount]
  | SWAP =>
      simp only [realEmit] at h
      cases hlast : cs.getLast? with
      | none => rw [hlast] at h; simp at h
      | some ctl =>
          rw [hlast] at h
          injection h with h
          rw [← h]
          simp only [Op.controlCount, List.length_dropLast]
          omega
  | P =>
      simp only [realEmit] at h
      cases hlast : cs.getLast? with
      | none => rw [hlast] at h; simp at h
      | some ctl =>
          rw [hlast] at h
          injection h with h
          rw [← h]
          simp only [Op.controlCount, List.length_dropLast]
          omega
  | Pdag =>
      simp only [realEmit] at h
      cases hlast : cs.getLast? with
      | none => rw [hlast] at h; simp at h
      | some ctl =>
          rw [hlast] at h
          injection h with h
          rw [← h]
          simp only [Op.controlCount, List.length_dropLast]
          omega
  | I =>
      simp only [realEmit] at h
      injection h with h
      rw [← h]
      simp [Op.controlCount]
  | H =>
      simp only [realEmit] at h
      injection h with h
      rw [← h]
      simp [Op.controlCount]
  | Y =>
      simp only [realEmit] at h
      injection h with h
      rw [← h]
      simp [Op.controlCount]
  | Z =>
      simp only [realEmit] at h
      injection h with h
      rw [← h]
      simp [Op.controlCount]
  | S =>
      simp only [realEmit] at h
      injection h with h
      rw [← h]
      simp [Op.controlCount]
  | Sdag =>
      simp only [realEmit] at h
      injection h with h
      rw [← h]
      simp [Op.controlCount]
  | T =>
      simp only [realEmit] at h
      injection h with h
      rw [← h]
      simp [Op.controlCount]
  | Tdag =>
      simp only [realEmit] at h
      injection h with h
      rw [← h]
      simp [Op.controlCount]
  | V =>
      simp only [realEmit] at h
      injection h with h
      rw [← h]
      simp [Op.controlCount]
  | Vdag =>
      simp only [realEmit] at h
      injection h with h
      rw [← h]
      simp [Op.controlCount]
  | U3 =>
      simp only [realEmit] at h
      injection h with h
      rw [← h]
      simp [Op.controlCount]
  | U2 =>
      simp only [realEmit] at h
      injection h with h
      rw [← h]
      simp [Op.controlCount]

theorem realLineFinish_spec (c : QuantumComputation) (gate : Gate) (lam : ℚ)
    (labels : List String) (k : ℕ) (c' : QuantumComputation)
    (h : realLineFinish c gate lam labels k = some c') :
    c.max_controls ≤ c'.max_controls ∧
    c'.nqubits = c.nqubits ∧
    c'.inputPermutation = c.inputPermutation ∧
    c'.outputPermutation = c.outputPermutation ∧
    ∃ op, c'.ops = c.ops ++ [op] ∧ op.controlCount ≤ c'.max_controls := by
  unfold realLineFinish at h
  split at h
  · simp at h
  next hlen =>
    split at h
    · simp at h
    next controls hpc =>
      split at h
      · simp at h
      next s sz hlk =>
        split at h
        · simp at h
        next op hemit =>
          injection h with h
          rw [← h]
          have h1 := realEmit_controlCount _ _ _ _ _ _ hemit
          have h2 := parseControls_length c _ _ hpc
          have hcl : controls.length = k := by
            rw [h2, List.length_take]
            omega
          refine ⟨?_, rfl, rfl, rfl, op, rfl, ?_⟩
          · simp [updateMaxControls]
          · have : op.controlCount ≤ max c.max_controls k := by
              calc op.controlCount ≤ controls.length := h1
                _ = k := hcl
                _ ≤ max c.max_controls k := le_max_right _ _
            simpa [updateMaxControls] using this

theorem processRealLine_spec (c : QuantumComputation) (l : RealGateLine)
    (c' : QuantumComputation) (h : processRealLine c l = some c') :
    c.max_controls ≤ c'.max_controls ∧
    c'.nqubits = c.nqubits ∧
    c'.inputPermutation = c.inputPermutation ∧
    c'.outputPermutation = c.outputPermutation ∧
    ∃ op, c'.ops = c.ops ++ [op] ∧ op.controlCount ≤ c'.max_controls := by
  unfold processRealLine at h
  split at h
  · simp at h
  next gate hgate =>
    split at h
    · simp at h
    · exact realLineFinish_spec _ _ _ _ _ _ h

theorem processRealLines_spec (lines : List RealGateLine) :
    ∀ c c', processRealLines c lines = some c' →
      c.max_controls ≤ c'.max_controls ∧
      c'.nqubits = c.nqubits ∧
      c'.inputPermutation = c.inputPermutation ∧
      c'.outputPermutation = c.outputPermutation ∧
      (∀ op ∈ c'.ops, op ∈ c.ops ∨ op.controlCount ≤ c'.max_controls) := by
  induction lines with
  | nil =>
      intro c c' h
      simp only [processRealLines] at h
      injection h with h
      rw [← h]
      exact ⟨le_refl _, rfl, rfl, rfl, fun op hop => Or.inl hop⟩
  | cons l rest ih =>
      intro c c' h
      simp only [processRealLines] at h
      cases hl : processRealLine c l with
      | none => rw [hl] at h; simp at h
      | some c1 =>
          rw [hl] at h
          obtain ⟨hmax1, hnq1, hip1, hop1, op, hops, hopc⟩ := processRealLine_spec c l c1 hl
          obtain ⟨hmax2, hnq2, hip2, hop2, hmem⟩ := ih c1 c' h
          refine ⟨le_trans hmax1 hmax2, hnq2.trans hnq1, hip2.trans hip1, hop2.trans hop1, ?_⟩
          intro o ho
          rcases hmem o ho with hin | hb
          · rw [hops] at hin
            rcases List.mem_append.mp hin with hold | hnew
            · exact Or.inl hold
            · simp only [List.mem_singleton] at hnew
              rw [hnew]
              exact Or.inr (le_trans hopc hmax2)
          · exact Or.inr hb

/-- C2 counterexample: importing the one-statement OpenQASM program
creg c[1] appends no operation, yet maxControlCount ends at 2, because
the OpenQASM import path seeds updateMaxControls(2) before parsing.
With k = 1 every appended operation vacuously has fewer than 1 control,
but maxControlCount is not below 1, refuting the claim that it equals
the largest observed control count. -/
theorem C2_counterexample :
    importOpenQASMFile emptyQC [.creg "c" 1] = some cregOnlyQC ∧
    cregOnlyQC.ops = [] ∧
    cregOnlyQC.max_controls = 2 ∧
    (∀ op ∈ cregOnlyQC.ops, op.controlCount < 1) ∧
    ¬ (cregOnlyQC.max_controls < 1) := by
  refine ⟨by decide, rfl, rfl, ?_, by decide⟩
  intro op hop
  simp [cregOnlyQC] at hop

/-- C2 (amended): maxControlCount is an upper bound rather than the
exact maximum of observed control counts. The OpenQASM import path
always seeds it with 2 (so it is max of the prior value and 2 no matter
what was parsed), and REAL body processing only ever raises it, keeping
every appended operation's control count bounded by it (the REAL value
recorded is the requested control count of the line, which for the
SWAP/P family can exceed the emitted operation's control count by
one). -/
theorem C2_amended :
    (∀ (c : QuantumComputation) (stmts : List QasmStmt) (c' : QuantumComputation),
      importOpenQASMFile c stmts = some c' →
      c'.max_controls = max c.max_controls 2) ∧
    (∀ lines c c', processRealLines c lines = some c' →
      c.max_controls ≤ c'.max_controls ∧
      (∀ op ∈ c'.ops, op ∈ c.ops ∨ op.controlCount ≤ c'.max_controls)) := by
  constructor
  · intro c stmts c' h
    unfold importOpenQASMFile importOpenQASM at h
    cases stmts with
    | nil => simp at h
    | cons s rest =>
        injection h with h
        rw [← h]
        show ((s :: rest).foldl applyQasmStmt (updateMaxControls c 2)).max_controls =
          max c.max_controls 2
        rw [foldl_applyQasmStmt_max_controls]
        rfl
  · intro lines c c' h
    obtain ⟨h1, _, _, _, h5⟩ := processRealLines_spec lines c c' h
    exact ⟨h1, h5⟩

/-- C2 witness: the amended theorem instantiated on a one-line REAL
body (a controlled X) starting from a two-qubit circuit. -/
theorem C2_witness :
    (processRealLines twoQubitQC [⟨"x", some 2, none, ["a", "b"]⟩] = some twoQubitQCcx) ∧
    (twoQubitQC.max_controls ≤ twoQubitQCcx.max_controls ∧
      (∀ op ∈ twoQubitQCcx.ops,
        op ∈ twoQubitQC.ops ∨ op.controlCount ≤ twoQubitQCcx.max_controls)) :=
  ⟨by decide,
    C2_amended.2 [⟨"x", some 2, none, ["a", "b"]⟩] twoQubitQC twoQubitQCcx (by decide)⟩

/-! ## C1: permutations after import -/

theorem applyQasmStmt_perms (c : QuantumComputation) (s : QasmStmt) :
    (applyQasmStmt c s).inputPermutation = c.inputPermutation ∧
    (applyQasmStmt c s).outputPermutation = c.outputPermutation := by
  cases s with
  | ifStmt nm n op =>
      simp only [applyQasmStmt]
      cases alookup c.cregs nm with
      | none => exact ⟨rfl, rfl⟩
      | some p => cases p with | mk a b => exact ⟨rfl, rfl⟩
  | qreg nm n => exact ⟨rfl, rfl⟩
  | creg nm n => exact ⟨rfl, rfl⟩
  | qop op => exact ⟨rfl, rfl⟩
  | gateDecl => exact ⟨rfl, rfl⟩
  | includeFile => exact ⟨rfl, rfl⟩
  | barrier args => exact ⟨rfl, rfl⟩
  | opaqueDecl => exact ⟨rfl, rfl⟩
  | snapshot n args => exact ⟨rfl, rfl⟩
  | probabilities => exact ⟨rfl, rfl⟩

theorem foldl_applyQasmStmt_perms (stmts : List QasmStmt) :
    ∀ c, (stmts.foldl applyQasmStmt c).inputPermutation = c.inputPermutation ∧
      (stmts.foldl applyQasmStmt c).outputPermutation = c.outputPermutation := by
  induction stmts with
  | nil => intro c; exact ⟨rfl, rfl⟩
  | cons s rest ih =>
      intro c
      rw [List.foldl_cons]
      obtain ⟨h1, h2⟩ := ih (applyQasmStmt c s)
      obtain ⟨h3, h4⟩ := applyQasmStmt_perms c s
      exact ⟨h1.trans h3, h2.trans h4⟩

theorem applyGrcsLine_frame (c : QuantumComputation) (l : GrcsLine)
    (c' : QuantumComputation) (h : applyGrcsLine c l = some c') :
    c'.inputPermutation = c.inputPermutation ∧
    c'.outputPermutation = c.outputPermutation ∧
    c'.nqubits = c.nqubits := by
  unfold applyGrcsLine at h
  split_ifs at h
  all_goals (injection h with h; rw [← h]; exact ⟨rfl, rfl, rfl⟩)

theorem processGrcsLines_frame (lines : List GrcsLine) :
    ∀ c c', processGrcsLines c lines = some c' →
      c'.inputPermutation = c.inputPermutation ∧
      c'.outputPermutation = c.outputPermutation ∧
      c'.nqubits = c.nqubits := by
  induction lines with
  | nil =>
      intro c c' h
      simp only [processGrcsLines] at h
      injection h with h
      rw [← h]
      exact ⟨rfl, rfl, rfl⟩
  | cons l rest ih =>
      intro c c' h
      simp only [processGrcsLines] at h
      cases hl : applyGrcsLine c l with
      | none => rw [hl] at h; simp at h
      | some c1 =>
          rw [hl] at h
          obtain ⟨h1, h2, h3⟩ := applyGrcsLine_frame c l c1 hl
          obtain ⟨h4, h5, h6⟩ := ih c1 c' h
          exact ⟨h4.trans h1, h5.trans h2, h6.trans h3⟩

/-- C1 counterexample: a REAL file whose header sets .NUMVARS 3 but
contains no .VARIABLES command imports successfully (nothing in the
parser requires the declaration), leaving qubitCount at 3 while both
permutations are still empty — not bijections over the index set 0..2. -/
theorem C1_counterexample :
    importReal emptyQC [RealHeaderCmd.numvars 3] [] =
      some { nqubits := 3, nclassics := 3 } ∧
    ({ nqubits := 3, nclassics := 3 } : QuantumComputation).inputPermutation = [] ∧
    ¬ isBijectionOver ({ nqubits := 3, nclassics := 3 } : QuantumComputation).inputPermutation
      ({ nqubits := 3, nclassics := 3 } : QuantumComputation).nqubits := by
  refine ⟨rfl, rfl, ?_⟩
  intro hbij
  have h0 := (hbij.1 0).mpr (by norm_num)
  simp [alookup] at h0

/-- C1 (amended): after an OpenQASM-family import and after a
grid-benchmark import both permutations are identity bijections over
exactly 0..qubitCount-1; the same holds for a REAL import whose header
declares .NUMVARS n followed by .VARIABLES. A REAL header that never
reaches a .VARIABLES command leaves the permutations empty even though
qubitCount is positive (see the counterexample), so the claim holds
only with that proviso. -/
theorem C1_amended :
    (∀ (stmts : List QasmStmt) (c' : QuantumComputation),
      importOpenQASMFile emptyQC stmts = some c' →
      isBijectionOver c'.inputPermutation c'.nqubits ∧
      isBijectionOver c'.outputPermutation c'.nqubits) ∧
    (∀ (n : ℕ) (lines : List GrcsLine) (c' : QuantumComputation),
      importGRCS emptyQC n lines = some c' →
      isBijectionOver c'.inputPermutation c'.nqubits ∧
      isBijectionOver c'.outputPermutation c'.nqubits) ∧
    (∀ (n : ℕ) (names : List String) (body : List RealGateLine) (c' : QuantumComputation),
      importReal emptyQC [.numvars n, .variables names] body = some c' →
      c'.nqubits = n ∧
      isBijectionOver c'.inputPermutation c'.nqubits ∧
      isBijectionOver c'.outputPermutation c'.nqubits) := by
  refine ⟨?_, ?_, ?_⟩
  · intro stmts c' h
    unfold importOpenQASMFile importOpenQASM at h
    cases stmts with
    | nil => simp at h
    | cons s rest =>
        injection h with h
        obtain ⟨h1, h2⟩ := foldl_applyQasmStmt_perms (s :: rest) (updateMaxControls emptyQC 2)
        have he1 : (updateMaxControls emptyQC 2).inputPermutation = [] := rfl
        have he2 : (updateMaxControls emptyQC 2).outputPermutation = [] := rfl
        rw [← h]
        constructor
        · show isBijectionOver
            (idInsert ((s :: rest).foldl applyQasmStmt (updateMaxControls emptyQC 2)).inputPermutation
              ((s :: rest).foldl applyQasmStmt (updateMaxControls emptyQC 2)).nqubits) _
          rw [h1, he1, idInsert_nil]
          exact identityPerm_bijection _
        · show isBijectionOver
            (idInsert ((s :: rest).foldl applyQasmStmt (updateMaxControls emptyQC 2)).outputPermutation
              ((s :: rest).foldl applyQasmStmt (updateMaxControls emptyQC 2)).nqubits) _
          rw [h2, he2, idInsert_nil]
          exact identityPerm_bijection _
  · intro n lines c' h
    unfold importGRCS at h
    cases hl : processGrcsLines { emptyQC with nqubits := n } lines with
    | none => rw [hl] at h; simp at h
    | some c1 =>
        rw [hl] at h
        injection h with h
        obtain ⟨h1, h2, h3⟩ := processGrcsLines_frame lines _ c1 hl
        have he1 : ({ emptyQC with nqubits := n } : QuantumComputation).inputPermutation = [] := rfl
        have he2 : ({ emptyQC with nqubits := n } : QuantumComputation).outputPermutation = [] := rfl
        rw [← h]
        constructor
        · show isBijectionOver (idInsert c1.inputPermutation c1.nqubits) c1.nqubits
          rw [h1, he1, idInsert_nil]
          exact identityPerm_bijection _
        · show isBijectionOver (idInsert c1.outputPermutation c1.nqubits) c1.nqubits
          rw [h2, he2, idInsert_nil]
          exact identityPerm_bijection _
  · intro n names body c' h
    unfold importReal at h
    obtain ⟨hmax, hnq, hip, hop, hmem⟩ :=
      processRealLines_spec body (readRealHeader emptyQC [.numvars n, .variables names]) c' h
    have hh1 : (readRealHeader emptyQC [.numvars n, .variables names]).inputPermutation =
        identityPerm n := by
      show idInsert [] n = identityPerm n
      exact idInsert_nil n
    have hh2 : (readRealHeader emptyQC [.numvars n, .variables names]).outputPermutation =
        identityPerm n := by
      show idInsert [] n = identityPerm n
      exact idInsert_nil n
    have hh3 : (readRealHeader emptyQC [.numvars n, .variables names]).nqubits = n := rfl
    refine ⟨hnq.trans hh3, ?_, ?_⟩
    · rw [hip, hh1, hnq.trans hh3]
      exact identityPerm_bijection n
    · rw [hop, hh2, hnq.trans hh3]
      exact identityPerm_bijection n

/-- C1 witness: the amended theorem instantiated on a two-variable REAL
header with an empty body. -/
theorem C1_witness :
    (importReal emptyQC [.numvars 2, .variables ["a", "b"]] [] =
      some (readRealHeader emptyQC [.numvars 2, .variables ["a", "b"]])) ∧
    ((readRealHeader emptyQC [.numvars 2, .variables ["a", "b"]]).nqubits = 2 ∧
      isBijectionOver (readRealHeader emptyQC [.numvars 2, .variables ["a", "b"]]).inputPermutation
        (readRealHeader emptyQC [.numvars 2, .variables ["a", "b"]]).nqubits ∧
      isBijectionOver (readRealHeader emptyQC [.numvars 2, .variables ["a", "b"]]).outputPermutation
        (readRealHeader emptyQC [.numvars 2, .variables ["a", "b"]]).nqubits) :=
  ⟨rfl, C1_amended.2.2 2 ["a", "b"] [] (readRealHeader emptyQC [.numvars 2, .variables ["a", "b"]]) rfl⟩

/-! ## C3: stripTrailingIdleQubits -/

theorem mem_eraseKey [DecidableEq α] (m : List (α × β)) (k : α) (kv : α × β) :
    kv ∈ eraseKey m k ↔ kv ∈ m ∧ kv.1 ≠ k := by
  simp [eraseKey, List.mem_filter]

theorem filter_lt_eraseKey (p : Permutation) (k m : ℕ) (hmk : m ≤ k) :
    (eraseKey p k).filter (fun kv => decide (kv.1 < m)) =
      p.filter (fun kv => decide (kv.1 < m)) := by
  unfold eraseKey
  rw [List.filter_filter]
  apply List.filter_congr
  intro kv _
  by_cases h : kv.1 < m
  · have hne : kv.1 ≠ k := by omega
    simp [h, hne]
  · simp [h]

theorem getQubitRegister_spec (c : QuantumComputation) (i : ℕ)
    (hex : ∃ r ∈ c.qregs, r.2.1 ≤ i ∧ i < r.2.1 + r.2.2) :
    ∃ r, r ∈ c.qregs ∧ r.2.1 ≤ i ∧ i < r.2.1 + r.2.2 ∧
      getQubitRegister c i = some r.1 := by
  cases hf : c.qregs.find? (fun r => decide (r.2.1 ≤ i ∧ i < r.2.1 + r.2.2)) with
  | none =>
      obtain ⟨r, hr, hr1, hr2⟩ := hex
      have hnone := List.find?_eq_none.mp hf r hr
      simp at hnone
      omega
  | some r =>
      have hp := List.find?_some hf
      simp at hp
      have hmem := List.mem_of_find?_eq_some hf
      refine ⟨r, hmem, hp.1, hp.2, ?_⟩
      unfold getQubitRegister
      rw [hf]
      rfl

theorem regsCover_shrink (regs : RegMap) (k : ℕ) (nm : String) (s sz : ℕ)
    (hc : RegsCover regs (k + 1)) (hmem : (nm, (s, sz)) ∈ regs)
    (hs : s ≤ k) (hk : k < s + sz) :
    RegsCover (shrinkReg regs nm) k := by
  obtain ⟨hbound, hpos, hcover, hnodup, hdisj⟩ := hc
  have hend : s + sz = k + 1 := by
    have := hbound (nm, (s, sz)) hmem
    simp at this
    omega
  obtain ⟨l1, l2, hsplit, hl1, hl2, hset, herase⟩ :=
    decomp_of_mem_nodup regs nm (s, sz) hmem hnodup
  have halk : alookup regs nm = some (s, sz) :=
    alookup_of_mem_nodup regs (nm, (s, sz)) hmem hnodup
  have hdisj' := hdisj
  rw [hsplit, List.pairwise_append] at hdisj'
  obtain ⟨hpw1, hpw2, hcross⟩ := hdisj'
  rw [List.pairwise_cons] at hpw2
  obtain ⟨hmid, hpw3⟩ := hpw2
  have hmemof : ∀ r ∈ l1 ++ l2, r ∈ regs := by
    intro r hr
    rw [hsplit]
    rcases List.mem_append.mp hr with h1 | h2
    · exact List.mem_append_left _ h1
    · exact List.mem_append_right _ (List.mem_cons_of_mem _ h2)
  have hothers : ∀ r ∈ l1 ++ l2, r.2.1 + r.2.2 ≤ s := by
    intro r hr
    have hrb : r.2.1 + r.2.2 ≤ k + 1 := by
      have := hbound r (hmemof r hr)
      simpa using this
    have hrp : 0 < r.2.2 := hpos r (hmemof r hr)
    rcases List.mem_append.mp hr with h1 | h2
    · rcases hcross r h1 (nm, (s, sz)) (List.mem_cons_self _ _) with hd | hd
      · exact hd
      · simp only at hd
        omega
    · rcases hmid r h2 with hd | hd
      · simp only at hd
        omega
      · exact hd
  unfold shrinkReg
  rw [halk]
  show RegsCover (if sz = 1 then eraseKey regs nm else setVal regs nm (s, sz - 1)) k
  by_cases hsz : sz = 1
  · rw [if_pos hsz, herase]
    subst hsz
    have hsk : s = k := by omega
    refine ⟨?_, ?_, ?_, ?_, ?_⟩
    · intro r hr
      have := hothers r hr
      omega
    · intro r hr
      exact hpos r (hmemof r hr)
    · intro i hi
      obtain ⟨r, hr, hr1, hr2⟩ := hcover i (by omega)
      rw [hsplit] at hr
      rcases List.mem_append.mp hr with hin1 | hin2
      · exact ⟨r, List.mem_append_left _ hin1, hr1, hr2⟩
      · rcases List.mem_cons.mp hin2 with rfl | hin3
        · simp only at hr1 hr2
          omega
        · exact ⟨r, List.mem_append_right _ hin3, hr1, hr2⟩
    · have hnd' : ((l1 ++ (nm, (s, 1)) :: l2).map Prod.fst).Nodup := by
        rw [← hsplit]
        exact hnodup
      refine List.Nodup.sublist ?_ hnd'
      exact List.Sublist.map Prod.fst ((List.sublist_cons_self _ _).append_left l1)
    · rw [List.pairwise_append]
      exact ⟨hpw1, hpw3, fun a ha b hb => hcross a ha b (List.mem_cons_of_mem _ hb)⟩
  · rw [if_neg hsz, hset (s, sz - 1)]
    have hsz2 : 2 ≤ sz := by
      have := hpos (nm, (s, sz)) hmem
      simp at this
      omega
    refine ⟨?_, ?_, ?_, ?_, ?_⟩
    · intro r hr
      rcases List.mem_append.mp hr with hin1 | hin2
      · have := hothers r (List.mem_append_left _ hin1)
        omega
      · rcases List.mem_cons.mp hin2 with rfl | hin3
        · simp only
          omega
        · have := hothers r (List.mem_append_right _ hin3)
          omega
    · intro r hr
      rcases List.mem_append.mp hr with hin1 | hin2
      · exact hpos r (hmemof r (List.mem_append_left _ hin1))
      · rcases List.mem_cons.mp hin2 with rfl | hin3
        · simp only
          omega
        · exact hpos r (hmemof r (List.mem_append_right _ hin3))
    · intro i hi
      obtain ⟨r, hr, hr1, hr2⟩ := hcover i (by omega)
      rw [hsplit] at hr
      rcases List.mem_append.mp hr with hin1 | hin2
      · exact ⟨r, List.mem_append_left _ hin1, hr1, hr2⟩
      · rcases List.mem_cons.mp hin2 with rfl | hin3
        · refine ⟨(nm, (s, sz - 1)), List.mem_append_right _ (List.mem_cons_self _ _), ?_, ?_⟩
          · simpa using hr1
          · simp only at hr2 ⊢
            omega
        · exact ⟨r, List.mem_append_right _ (List.mem_cons_of_mem _ hin3), hr1, hr2⟩
    · have hkeys : ((l1 ++ (nm, (s, sz - 1)) :: l2).map Prod.fst) =
          ((l1 ++ (nm, (s, sz)) :: l2).map Prod.fst) := by
        simp
      rw [hkeys, ← hsplit]
      exact hnodup
    · rw [List.pairwise_append]
      refine ⟨hpw1, ?_, ?_⟩
      · rw [List.pairwise_cons]
        refine ⟨?_, hpw3⟩
        intro b hb
        rcases hmid b hb with hd | hd
        · left
          simp only at hd ⊢
          omega
        · right
          exact hd
      · intro a ha b hb
        rcases List.mem_cons.mp hb with rfl | hb2
        · rcases hcross a ha (nm, (s, sz)) (List.mem_cons_self _ _) with hd | hd
          · left
            exact hd
          · right
            simp only at hd ⊢
            omega
        · exact hcross a ha b (List.mem_cons_of_mem _ hb2)

theorem stripAux_spec (m : ℕ) (hm : 0 < m) :
    ∀ k, m ≤ k → ∀ c : QuantumComputation, c.nqubits = k →
      (∀ op ∈ c.ops, ∀ q ∈ op.opQubits, q < m) →
      (∀ i < m, ∃ op ∈ c.ops, op.actsOn i = true) →
      RegsCover c.qregs k →
      (∀ kv ∈ c.inputPermutation, kv.1 < k) →
      (∀ kv ∈ c.outputPermutation, kv.1 < k) →
      ∃ c', stripAux c k = some c' ∧
        c'.nqubits = m ∧
        c'.inputPermutation = c.inputPermutation.filter (fun kv => decide (kv.1 < m)) ∧
        c'.outputPermutation = c.outputPermutation.filter (fun kv => decide (kv.1 < m)) ∧
        c'.ops = c.ops.map (fun op => op.setNqubits m) ∧
        RegsCover c'.qregs m := by
  intro k hk
  induction k, hk using Nat.le_induction with
  | base =>
      intro c hnq h1 h2 hcov h5 h6
      obtain ⟨j, rfl⟩ : ∃ j, m = j + 1 := ⟨m - 1, by omega⟩
      obtain ⟨op, hop, hact⟩ := h2 j (by omega)
      have hidle : isIdleQubit c j = false := by
        unfold isIdleQubit
        have : c.ops.any (fun op => op.actsOn j) = true :=
          List.any_eq_true.mpr ⟨op, hop, hact⟩
        rw [this]
        rfl
      refine ⟨{ c with ops := c.ops.map (fun op => op.setNqubits c.nqubits) }, ?_, ?_, ?_, ?_, ?_, ?_⟩
      · simp only [stripAux, hidle]
        rfl
      · exact hnq
      · refine (List.filter_eq_self.mpr ?_).symm
        intro kv hkv
        simpa using h5 kv hkv
      · refine (List.filter_eq_self.mpr ?_).symm
        intro kv hkv
        simpa using h6 kv hkv
      · rw [hnq]
      · exact hcov
  | succ k hk ih =>
      intro c hnq h1 h2 hcov h5 h6
      have hidle : isIdleQubit c k = true := by
        unfold isIdleQubit
        have hany : c.ops.any (fun op => op.actsOn k) = false := by
          rw [List.any_eq_false]
          intro op hop
          simp only [Op.actsOn, decide_eq_true_eq]
          intro hmem
          have := h1 op hop k hmem
          omega
        rw [hany]
        rfl
      obtain ⟨hbound, hpos, hcover, hnodup, hdisj⟩ := hcov
      obtain ⟨r, hmem, hle, hlt, hget⟩ :=
        getQubitRegister_spec c k (hcover k (by omega))
      obtain ⟨nm, s, sz⟩ := r
      simp only at hle hlt hget
      have hcov' : RegsCover c.qregs (k + 1) := ⟨hbound, hpos, hcover, hnodup, hdisj⟩
      have hshr : RegsCover (shrinkReg c.qregs nm) k :=
        regsCover_shrink c.qregs k nm s sz hcov' hmem hle hlt
      obtain ⟨c'', hfold, hnq'', hip'', hop'', hops'', hcov''⟩ :=
        ih { c with
              inputPermutation := eraseKey c.inputPermutation k
              outputPermutation := eraseKey c.outputPermutation k
              nqubits := c.nqubits - 1
              qregs := shrinkReg c.qregs nm }
          (by simp [hnq]) h1 h2 hshr
          (by
            intro kv hkv
            obtain ⟨hin, hne⟩ := (mem_eraseKey _ _ _).mp hkv
            have := h5 kv hin
            simp only at this ⊢
            omega)
          (by
            intro kv hkv
            obtain ⟨hin, hne⟩ := (mem_eraseKey _ _ _).mp hkv
            have := h6 kv hin
            simp only at this ⊢
            omega)
      refine ⟨c'', ?_, hnq'', ?_, ?_, hops'', hcov''⟩
      · simp only [stripAux, hidle, hget]
        exact hfold
      · rw [hip'']
        simp only
        exact filter_lt_eraseKey c.inputPermutation k m hk
      · rw [hop'']
        simp only
        exact filter_lt_eraseKey c.outputPermutation k m hk

/-- C3: on a circuit of n qubits whose operations act on exactly the
indices 0..m-1 (0 < m ≤ n), with a well-formed register table and
permutations defined inside the live index range,
stripTrailingIdleQubits succeeds, reduces the qubit count to exactly m,
removes precisely the stripped indices m..n-1 from both permutations
(entries below the first busy index are untouched), and resizes every
operation to the new width. -/
theorem C3_stripTrailingIdleQubits (c : QuantumComputation) (m : ℕ)
    (hm : 0 < m) (hmn : m ≤ c.nqubits)
    (h1 : ∀ op ∈ c.ops, ∀ q ∈ op.opQubits, q < m)
    (h2 : ∀ i < m, ∃ op ∈ c.ops, op.actsOn i = true)
    (hcov : RegsCover c.qregs c.nqubits)
    (h5 : ∀ kv ∈ c.inputPermutation, kv.1 < c.nqubits)
    (h6 : ∀ kv ∈ c.outputPermutation, kv.1 < c.nqubits) :
    ∃ c', stripTrailingIdleQubits c = some c' ∧
      c'.nqubits = m ∧
      c'.inputPermutation = c.inputPermutation.filter (fun kv => decide (kv.1 < m)) ∧
      c'.outputPermutation = c.outputPermutation.filter (fun kv => decide (kv.1 < m)) ∧
      c'.ops = c.ops.map (fun op => op.setNqubits m) := by
  obtain ⟨c', hs, hnq, hip, hop, hops, _⟩ :=
    stripAux_spec m hm c.nqubits hmn c rfl h1 h2 hcov h5 h6
  exact ⟨c', hs, hnq, hip, hop, hops⟩

/-- C3 witness: stripping the three-qubit circuit whose only operation
is a Hadamard on qubit 0. -/
theorem C3_witness :
    ((0 : ℕ) < 1 ∧ 1 ≤ stripWitnessQC.nqubits ∧
      (∀ op ∈ stripWitnessQC.ops, ∀ q ∈ op.opQubits, q < 1) ∧
      (∀ i < 1, ∃ op ∈ stripWitnessQC.ops, op.actsOn i = true) ∧
      RegsCover stripWitnessQC.qregs stripWitnessQC.nqubits ∧
      (∀ kv ∈ stripWitnessQC.inputPermutation, kv.1 < stripWitnessQC.nqubits) ∧
      (∀ kv ∈ stripWitnessQC.outputPermutation, kv.1 < stripWitnessQC.nqubits)) ∧
    (∃ c', stripTrailingIdleQubits stripWitnessQC = some c' ∧
      c'.nqubits = 1 ∧
      c'.inputPermutation = stripWitnessQC.inputPermutation.filter (fun kv => decide (kv.1 < 1)) ∧
      c'.outputPermutation = stripWitnessQC.outputPermutation.filter (fun kv => decide (kv.1 < 1)) ∧
      c'.ops = stripWitnessQC.ops.map (fun op => op.setNqubits 1)) :=
  ⟨⟨by decide, by decide, by decide, by decide, by decide, by decide, by decide⟩,
    C3_stripTrailingIdleQubits stripWitnessQC 1 (by decide) (by decide) (by decide)
      (by decide) (by decide) (by decide) (by decide)⟩

end QC
